import Mathlib

/-!
# Chained hash table `itis::HashTable` (src/src/hash_table.cpp)

A shallow embedding of the integer-to-string hash table with separate
chaining, and theorems about its operations.

Modelling conventions
* `int` values are unbounded integers (`Int`, or `Nat` for sizes and indices).
* `double` values are the rationals that binary64 represents; comparisons of
  doubles are exact, and the one arithmetic operation on doubles, the division
  of the threshold test of `Put`, is rounded to the nearest binary64 value,
  ties to even (`doubleDiv`).
* `std::list<std::pair<int, std::string>>` is a `List (Int × String)`,
  `std::vector<Bucket>` is a `List Bucket`.
* `std::optional<T>` is `Option T`; a thrown exception is `Except.error`.
* An execution with no defined result (control reaching the end of a
  value-returning function) is `none` of an outer `Option`.
-/

namespace itis

/-- The pair type stored in a bucket. -/
abbrev Entry := Int × String

/-- The chain of one bucket: `std::list<std::pair<int, std::string>>`. -/
abbrev Bucket := List Entry

/-- Modelled from the spec: the declarations of `hash_table.hpp` and `utils`
that the source file uses and that are not part of it. `hash` is
`utils::hash(key, size)`, "a deterministic function of (key, current capacity)";
`kGrowthCoefficient` is the "constant multiplier applied to capacity on resize";
`setOrder` is the order in which a range-for visits a `std::unordered_set<int>`
whose elements were inserted in the given order (the standard leaves it
unspecified). -/
structure Header where
  hash : Int → Nat → Nat
  kGrowthCoefficient : ℚ
  setOrder : List Int → List Int

/-- The range condition of `utils::hash`: "producing a value in [0, capacity)". -/
def Header.HashInRange (H : Header) : Prop :=
  ∀ (key : Int) (size : Nat), 0 < size → H.hash key size < size

/-- The data members of `HashTable`. -/
structure HashTable where
  buckets_ : List Bucket
  num_keys_ : Int
  load_factor_ : ℚ
deriving DecidableEq

/-- The exception thrown by the constructor. -/
inductive Error where
  | logic_error (what : String)
deriving DecidableEq

/-- Modelled from the spec: the default member initialiser of `num_keys_` in
`hash_table.hpp`; the constructor "sets stored-key count to zero". -/
def num_keys_init : Int := 0

/-- Method `HashTable::hash`: `utils::hash(key, buckets_.size())`. -/
def HashTable.hash (H : Header) (t : HashTable) (key : Int) : Nat :=
  H.hash key t.buckets_.length

/-- Constructor `HashTable::HashTable(int capacity, double load_factor)`; the
member `num_keys_` keeps its default member initialiser. -/
def HashTable.new (capacity : Int) (load_factor : ℚ) : Except Error HashTable :=
  if capacity ≤ 0 then
    .error (.logic_error "hash table capacity must be greater than zero")
  else if load_factor ≤ 0 ∨ load_factor > 1 then
    .error (.logic_error "hash table load factor must be in range [0...1]")
  else
    .ok { buckets_ := List.replicate capacity.toNat [], num_keys_ := num_keys_init,
          load_factor_ := load_factor }

/-- The range-for of `Search` over one bucket: the value of the first pair
whose key matches. -/
def searchBucket (key : Int) : Bucket → Option String
  | [] => none
  | pair :: rest => if pair.1 = key then some pair.2 else searchBucket key rest

/-- Method `HashTable::Search`. -/
def HashTable.Search (H : Header) (t : HashTable) (key : Int) : Option String :=
  let key_hash := t.hash H key
  let bucket := t.buckets_.getD key_hash []
  searchBucket key bucket

/-- Method `HashTable::ContainsKey`. -/
def HashTable.ContainsKey (H : Header) (t : HashTable) (key : Int) : Bool :=
  (t.Search H key).isSome

/-- Method `HashTable::size`. -/
def HashTable.size (t : HashTable) : Int := t.num_keys_

/-- Method `HashTable::empty`. -/
def HashTable.empty (t : HashTable) : Bool := t.size == 0

/-- Method `HashTable::capacity`. -/
def HashTable.capacity (t : HashTable) : Int := (t.buckets_.length : Int)

/-- Method `HashTable::load_factor`. -/
def HashTable.load_factor (t : HashTable) : ℚ := t.load_factor_

/-- Method `std::unordered_set<int>::insert` on a set kept as a duplicate-free list
in insertion order. -/
def setInsert (keys : List Int) (key : Int) : List Int :=
  if key ∈ keys then keys else keys ++ [key]

/-- Method `HashTable::keys`: both loops, inserting every stored key. -/
def HashTable.keys (t : HashTable) : List Int :=
  t.buckets_.foldl (fun keys bucket => bucket.foldl (fun keys pair => setInsert keys pair.1) keys) []

/-- Method `HashTable::values`: both loops, pushing every stored value. -/
def HashTable.values (t : HashTable) : List String :=
  t.buckets_.foldl (fun values bucket => bucket.foldl (fun values pair => values ++ [pair.2]) values) []

/-- The natural number nearest to `N / D`, ties to the even one. -/
def roundHalfEven (N D : Nat) : Nat :=
  let f := N / D
  let r := N % D
  if 2 * r < D then f
  else if D < 2 * r then f + 1
  else if f % 2 = 0 then f else f + 1

/-- Halving loop of `floorLog2`; `fuel` bounds the number of halvings. -/
def log2Loop : Nat → Nat → Nat
  | 0, _ => 0
  | fuel + 1, n => if 2 ≤ n then log2Loop fuel (n / 2) + 1 else 0

/-- The exponent `e` with `2^e ≤ n < 2^(e+1)`, for positive `n`. -/
def floorLog2 (n : Nat) : Nat := log2Loop n n

/-- The exponent `e` with `2^e ≤ a / b < 2^(e+1)`, for positive `a` and `b`. -/
def quotExponent (a b : Nat) : Int :=
  let e0 : Int := (floorLog2 a : Int) - (floorLog2 b : Int)
  if b * 2 ^ e0.toNat ≤ a * 2 ^ (-e0).toNat then e0 else e0 - 1

/-- Numerator and denominator of the binary64 value nearest to `a / b`, for
positive `a` and `b`: the quotient is rounded to a multiple of `2^p`, where
`p = e - 52` leaves a 53-bit significand and `p = -1074` is the spacing of the
subnormal values. -/
def roundQuotParts (a b : Nat) : Nat × Nat :=
  let e := quotExponent a b
  let p : Int := max (e - 52) (-1074)
  let m := roundHalfEven (a * 2 ^ (-p).toNat) (b * 2 ^ p.toNat)
  (m * 2 ^ p.toNat, 2 ^ (-p).toNat)

/-- The binary64 value nearest to `a / b`, ties to even, for positive `a`, `b`. -/
def roundQuot (a b : Nat) : ℚ :=
  ((roundQuotParts a b).1 : ℚ) / ((roundQuotParts a b).2 : ℚ)

/-- Conversion of an unsigned integer to `double`: exact below `2^53`, rounded
to a 53-bit significand above. -/
def natToDouble (n : Nat) : Nat :=
  let e := floorLog2 n
  if e ≤ 52 then n else roundHalfEven n (2 ^ (e - 52)) * 2 ^ (e - 52)

/-- The `double` quotient `static_cast<double>(c) / n` for `n > 0`: both
operands converted to `double`, the quotient rounded to nearest, ties to even.
For an `int` counter and a `size_t` size the quotient lies far inside the
binary64 range, so overflow to infinity is not modelled. -/
def doubleDiv (c : Int) (n : Nat) : ℚ :=
  if c = 0 then 0
  else if 0 < c then roundQuot (natToDouble c.toNat) (natToDouble n)
  else - roundQuot (natToDouble c.natAbs) (natToDouble n)

/-- The threshold test of `Put` (line 46),
`static_cast<double>(num_keys_) / buckets_.size() >= load_factor_`. A division
by `0.0` gives `+inf` for a positive counter (the test is true) and `NaN` or
`-inf` otherwise (the test is false). -/
def thresholdTest (num_keys : Int) (size : Nat) (load_factor : ℚ) : Bool :=
  if size = 0 then decide (0 < num_keys) else decide (doubleDiv num_keys size ≥ load_factor)

/-- Method `HashTable::Put`. -/
def HashTable.Put (H : Header) (t : HashTable) (key : Int) (value : String) : HashTable :=
  let key_hash := t.hash H key
  let pair : Entry := (key, value)
  let t1 : HashTable :=
    { t with buckets_ := t.buckets_.set key_hash (t.buckets_.getD key_hash [] ++ [pair]) }
  if thresholdTest t1.num_keys_ t1.buckets_.length t1.load_factor_ then
    let new_capacity : Nat := ⌊(t1.capacity : ℚ) * H.kGrowthCoefficient⌋.toNat
    let new_buckets : List Bucket := List.replicate new_capacity []
    let keys := H.setOrder t1.keys
    let new_buckets := keys.foldl
      (fun nb key_ => nb.set (H.hash key_ new_capacity) (t1.buckets_.getD (t1.hash H key_) []))
      new_buckets
    { t1 with buckets_ := new_buckets }
  else
    t1

/-- Method `HashTable::Remove`. The loop body returns in its first iteration on both
branches; when the bucket is empty the body is never entered and control
reaches the end of the function, which has no `return`: no result (`none`).
`std::list::remove(pair)` erases every element equal to `pair`. -/
def HashTable.Remove (H : Header) (t : HashTable) (key : Int) :
    Option (Option String × HashTable) :=
  let hashIndex := t.hash H key
  match t.buckets_.getD hashIndex [] with
  | [] => none
  | pair :: rest =>
    if pair.1 = key then
      let remove := pair
      some (some remove.2,
        { t with buckets_ := t.buckets_.set hashIndex ((pair :: rest).filter (fun p => p ≠ pair)) })
    else
      some (none, t)

/-- One call of the public mutating interface. -/
inductive Op where
  | put (key : Int) (value : String)
  | remove (key : Int)
deriving DecidableEq

/-- The table after one call; `none` when the call has no defined result. -/
def HashTable.step (H : Header) (t : HashTable) : Op → Option HashTable
  | .put key value => some (t.Put H key value)
  | .remove key => (t.Remove H key).map Prod.snd

/-- The table after a sequence of calls, left to right. -/
def HashTable.run (H : Header) (t : HashTable) : List Op → Option HashTable
  | [] => some t
  | op :: ops => (t.step H op).bind (fun t1 => t1.run H ops)

/-- The table after a sequence of `Put` calls, left to right. -/
def HashTable.putAll (H : Header) (t : HashTable) (puts : List (Int × String)) : HashTable :=
  puts.foldl (fun t p => t.Put H p.1 p.2) t

/-- Tables reachable from a successful construction by `Put` and `Remove` calls. -/
inductive Reachable (H : Header) : HashTable → Prop where
  | init {capacity : Int} {load_factor : ℚ} {t : HashTable} :
      HashTable.new capacity load_factor = .ok t → Reachable H t
  | put {t : HashTable} (key : Int) (value : String) :
      Reachable H t → Reachable H (t.Put H key value)
  | remove {t t1 : HashTable} {r : Option String} (key : Int) :
      Reachable H t → t.Remove H key = some (r, t1) → Reachable H t1

/-- The spec's reading of `values()`: "all values across all buckets in
bucket-then-position order", the concatenation of the value lists of the buckets. -/
def concatValues : List Bucket → List String
  | [] => []
  | bucket :: rest => bucket.map Prod.snd ++ concatValues rest

/-- The total number of entries across all buckets. -/
def entryCount : List Bucket → Nat
  | [] => 0
  | bucket :: rest => bucket.length + entryCount rest

/-- The table built by `HashTable(4, 0.75)`. -/
def table4 : HashTable :=
  { buckets_ := [[], [], [], []], num_keys_ := 0, load_factor_ := 0.75 }

/-- The table built by `HashTable(1, 1.0)`. -/
def table1 : HashTable :=
  { buckets_ := [[]], num_keys_ := 0, load_factor_ := 1 }

/-- The table after `HashTable(4, 0.75)`, `Put(1, "a")`, `Put(5, "b")`: both
keys in bucket 1 under the modulo hash. -/
def table4_1_5 : HashTable :=
  { buckets_ := [[], [(1, "a"), (5, "b")], [], []], num_keys_ := 0, load_factor_ := 0.75 }

/-- A table state with four buckets whose bucket 1 holds key 1 three times,
twice with the value `"a"`, and key 5 between. -/
def tableDup : HashTable :=
  { buckets_ := [[], [(1, "a"), (5, "c"), (1, "b"), (1, "a")], [], []], num_keys_ := 0,
    load_factor_ := 0.75 }

/-- A table state with four buckets, keys 1 and 2 stored, stored-key count 2
and load factor 0.5: the next `Put` takes the growth branch. -/
def tableHalf : HashTable :=
  { buckets_ := [[], [(1, "a")], [(2, "b")], []], num_keys_ := 2, load_factor_ := 0.5 }

/-- Modelled from the spec: one instance of the missing declarations, used to
evaluate the code on concrete inputs: a modulo hash, the growth coefficient 2
("a fixed constant > 1, e.g. 2"), and the set visited in insertion order. -/
def modHeader : Header where
  hash := fun key size => (key % (size : Int)).toNat
  kGrowthCoefficient := 2
  setOrder := id


/-- What every reachable table satisfies: the counter is still `0`, the load
factor is positive and there is at least one bucket. -/
structure Inv (t : HashTable) : Prop where
  num_keys : t.num_keys_ = 0
  load_factor_pos : 0 < t.load_factor_
  capacity_pos : 0 < t.buckets_.length

/-- Every stored entry of the table has a key satisfying `P`. -/
def KeysIn (P : Int → Prop) (t : HashTable) : Prop :=
  ∀ b ∈ t.buckets_, ∀ p ∈ b, P p.1

/-- The bucket array after the `push_back` of `Put` (line 44). -/
def appendedBuckets (H : Header) (t : HashTable) (key : Int) (value : String) : List Bucket :=
  t.buckets_.set (t.hash H key) (t.buckets_.getD (t.hash H key) [] ++ [(key, value)])

/-- The bucket array `new_buckets` at the end of the growth branch of `Put`
(lines 47-53), built from the array after the `push_back`. -/
def grownBuckets (H : Header) (t : HashTable) (key : Int) (value : String) : List Bucket :=
  let buckets := appendedBuckets H t key value
  let new_capacity : Nat := ⌊(buckets.length : ℚ) * H.kGrowthCoefficient⌋.toNat
  (H.setOrder (HashTable.keys (HashTable.mk buckets t.num_keys_ t.load_factor_))).foldl
    (fun nb key_ => nb.set (H.hash key_ new_capacity) (buckets.getD (H.hash key_ buckets.length) []))
    (List.replicate new_capacity [])

/-- Every stored entry lies in the bucket whose index is the hash of its key
under the current capacity. -/
def WellPlaced (H : Header) (t : HashTable) : Prop :=
  ∀ i : Nat, ∀ p ∈ t.buckets_.getD i [], t.hash H p.1 = i

/-! ## The constructor and the reachable tables -/

theorem new_eq_ok {capacity : Int} {load_factor : ℚ} {t : HashTable}
    (h : HashTable.new capacity load_factor = .ok t) :
    0 < capacity ∧ 0 < load_factor ∧ load_factor ≤ 1 ∧
      t = { buckets_ := List.replicate capacity.toNat [], num_keys_ := 0,
            load_factor_ := load_factor } := by
  unfold HashTable.new at h
  split_ifs at h with h1 h2
  · push_neg at h2
    refine ⟨by omega, h2.1, h2.2, ?_⟩
    injection h with h
    exact h.symm

theorem inv_of_new {capacity : Int} {load_factor : ℚ} {t : HashTable}
    (h : HashTable.new capacity load_factor = .ok t) : Inv t := by
  obtain ⟨hc, hl, -, rfl⟩ := new_eq_ok h
  exact ⟨rfl, hl, by simp; omega⟩

/-! ## The threshold test -/

theorem log2Loop_spec : ∀ (fuel n : Nat), 0 < n → n ≤ fuel →
    2 ^ log2Loop fuel n ≤ n ∧ n < 2 ^ (log2Loop fuel n + 1) := by
  intro fuel
  induction fuel with
  | zero => intro n h1 h2; omega
  | succ fuel ih =>
    intro n h1 h2
    simp only [log2Loop]
    split_ifs with h
    · have := ih (n / 2) (by omega) (by omega)
      rw [pow_succ, pow_succ]
      omega
    · simp; omega

/-- The fuel of `floorLog2` is enough: its result is the floor of the binary
logarithm. -/
theorem floorLog2_spec (n : Nat) (h : 0 < n) :
    2 ^ floorLog2 n ≤ n ∧ n < 2 ^ (floorLog2 n + 1) :=
  log2Loop_spec n n h le_rfl

/-- The result of `roundHalfEven N D` is within one half of `N / D`. -/
theorem roundHalfEven_spec (N D : Nat) (hD : 0 < D) :
    2 * (roundHalfEven N D * D) ≤ 2 * N + D ∧ 2 * N ≤ 2 * (roundHalfEven N D * D) + D := by
  have h1 : N / D * D + N % D = N := Nat.div_add_mod' N D
  have h2 : N % D < D := Nat.mod_lt N hD
  have h3 : (N / D + 1) * D = N / D * D + D := by ring
  unfold roundHalfEven
  simp only
  split_ifs
  all_goals rw [h3] at *
  all_goals omega

/-- The result `e` of `quotExponent a b` satisfies `2^e ≤ a / b < 2^(e+1)`,
stated without fractions. -/
theorem quotExponent_spec (a b : Nat) (ha : 0 < a) (hb : 0 < b) :
    b * 2 ^ (quotExponent a b).toNat ≤ a * 2 ^ (-(quotExponent a b)).toNat ∧
      a * 2 ^ (-(quotExponent a b + 1)).toNat < b * 2 ^ (quotExponent a b + 1).toNat := by
  obtain ⟨ha1, ha2⟩ := floorLog2_spec a ha
  obtain ⟨hb1, hb2⟩ := floorLog2_spec b hb
  unfold quotExponent
  simp only
  generalize floorLog2 a = la at *
  generalize floorLog2 b = lb at *
  rcases le_total lb la with h | h
  · obtain ⟨d, rfl⟩ := Nat.exists_eq_add_of_le h
    have he : ((lb + d : ℕ) : ℤ) - (lb : ℤ) = (d : ℤ) := by push_cast; ring
    rw [he]
    have hneg : (-(d : ℤ)).toNat = 0 := by omega
    simp only [Int.toNat_natCast, hneg, pow_zero, mul_one]
    have hpow : 2 ^ (lb + d + 1) = 2 ^ lb * 2 ^ (d + 1) := by ring
    have hpow2 : 2 ^ (lb + d) = 2 ^ lb * 2 ^ d := by ring
    split_ifs with ht
    · have h1 : ((d : ℤ) + 1).toNat = d + 1 := by omega
      have h2 : (-((d : ℤ) + 1)).toNat = 0 := by omega
      simp only [Int.toNat_natCast, hneg, h1, h2, pow_zero, mul_one]
      refine ⟨ht, ?_⟩
      calc a < 2 ^ (lb + d + 1) := ha2
        _ = 2 ^ lb * 2 ^ (d + 1) := hpow
        _ ≤ b * 2 ^ (d + 1) := Nat.mul_le_mul_right _ hb1
    · cases d with
      | zero =>
        have h1 : ((((0 : ℕ) : ℤ)) - 1).toNat = 0 := by decide
        have h2 : (-((((0 : ℕ) : ℤ)) - 1)).toNat = 1 := by decide
        have h3 : ((((0 : ℕ) : ℤ)) - 1 + 1).toNat = 0 := by decide
        have h4 : (-((((0 : ℕ) : ℤ)) - 1 + 1)).toNat = 0 := by decide
        simp only [h1, h2, h3, h4, pow_zero, pow_one, mul_one] at ht ⊢
        have : 2 ^ (lb + 1) = 2 * 2 ^ lb := by ring
        simp only [add_zero] at ha1
        omega
      | succ k =>
        have h1 : (((k + 1 : ℕ) : ℤ) - 1).toNat = k := by omega
        have h2 : (-(((k + 1 : ℕ) : ℤ) - 1)).toNat = 0 := by omega
        have h3 : (((k + 1 : ℕ) : ℤ) - 1 + 1).toNat = k + 1 := by omega
        have h4 : (-(((k + 1 : ℕ) : ℤ) - 1 + 1)).toNat = 0 := by omega
        simp only [h1, h2, h3, h4, pow_zero, mul_one]
        refine ⟨?_, Nat.lt_of_not_le ht⟩
        have hb3 : b * 2 ^ k ≤ 2 ^ (lb + 1) * 2 ^ k :=
          Nat.mul_le_mul_right _ (Nat.le_of_lt hb2)
        have hp : 2 ^ (lb + 1) * 2 ^ k = 2 ^ (lb + (k + 1)) := by ring
        omega
  · obtain ⟨d, rfl⟩ := Nat.exists_eq_add_of_le h
    have he : (la : ℤ) - ((la + d : ℕ) : ℤ) = -(d : ℤ) := by push_cast; ring
    rw [he]
    have hneg : (-(d : ℤ)).toNat = 0 := by omega
    simp only [neg_neg, Int.toNat_natCast, hneg, pow_zero, mul_one]
    split_ifs with ht
    · cases d with
      | zero =>
        have h1 : (-(((0 : ℕ) : ℤ)) + 1).toNat = 1 := by decide
        have h2 : (-(-(((0 : ℕ) : ℤ)) + 1)).toNat = 0 := by decide
        simp only [neg_neg, Int.toNat_natCast, hneg, h1, h2, pow_zero, pow_one, mul_one] at ht ⊢
        have : 2 ^ (la + 1) = 2 * 2 ^ la := by ring
        simp only [add_zero] at hb1
        omega
      | succ k =>
        have h1 : (-(((k + 1 : ℕ) : ℤ)) + 1).toNat = 0 := by omega
        have h2 : (-(-(((k + 1 : ℕ) : ℤ)) + 1)).toNat = k := by omega
        simp only [neg_neg, Int.toNat_natCast, hneg, h1, h2, pow_zero, mul_one]
        refine ⟨ht, ?_⟩
        have ha3 : a * 2 ^ k < 2 ^ (la + 1) * 2 ^ k :=
          Nat.mul_lt_mul_of_pos_right ha2 (by positivity)
        have hp : 2 ^ (la + 1) * 2 ^ k = 2 ^ (la + (k + 1)) := by ring
        omega
    · have h1 : (-(d : ℤ) - 1).toNat = 0 := by omega
      have h2 : (-(-(d : ℤ) - 1)).toNat = d + 1 := by omega
      have h3 : (-(d : ℤ) - 1 + 1).toNat = 0 := by omega
      have h4 : (-(-(d : ℤ) - 1 + 1)).toNat = d := by omega
      simp only [h1, h2, h3, h4, pow_zero, mul_one]
      refine ⟨?_, Nat.lt_of_not_le ht⟩
      have ha3 : 2 ^ la * 2 ^ (d + 1) ≤ a * 2 ^ (d + 1) := Nat.mul_le_mul_right _ ha1
      have hp : 2 ^ la * 2 ^ (d + 1) = 2 ^ (la + d + 1) := by ring
      omega

/-- The quotient `0.0 / n` is `0.0`, below every positive load factor. -/
theorem thresholdTest_zero (size : Nat) (load_factor : ℚ) (h : 0 < load_factor) :
    thresholdTest 0 size load_factor = false := by
  unfold thresholdTest
  split_ifs
  · simp
  · simp [doubleDiv, h]

theorem thresholdTest_of_pos (num_keys : Int) {size : Nat} (hsize : 0 < size) (load_factor : ℚ) :
    thresholdTest num_keys size load_factor = true ↔ doubleDiv num_keys size ≥ load_factor := by
  unfold thresholdTest
  rw [if_neg (Nat.pos_iff_ne_zero.mp hsize)]
  exact decide_eq_true_iff

/-- With the counter at `0` the threshold test of `Put` is false: `Put` only
appends the pair to the bucket of its key. -/
theorem Put_eq_of_inv (H : Header) {t : HashTable} (ht : Inv t) (key : Int) (value : String) :
    t.Put H key value =
      { t with
        buckets_ := t.buckets_.set (t.hash H key) (t.buckets_.getD (t.hash H key) [] ++ [(key, value)]) } := by
  unfold HashTable.Put
  simp [ht.num_keys, thresholdTest_zero _ _ ht.load_factor_pos]

theorem inv_Put (H : Header) {t : HashTable} (ht : Inv t) (key : Int) (value : String) :
    Inv (t.Put H key value) := by
  rw [Put_eq_of_inv H ht]
  exact ⟨ht.num_keys, ht.load_factor_pos, by simpa using ht.capacity_pos⟩

theorem inv_Remove (H : Header) {t t1 : HashTable} {r : Option String} {key : Int}
    (ht : Inv t) (h : t.Remove H key = some (r, t1)) : Inv t1 := by
  cases hb : t.buckets_.getD (t.hash H key) [] with
  | nil => simp only [HashTable.Remove, hb, reduceCtorEq] at h
  | cons pair rest =>
    simp only [HashTable.Remove, hb] at h
    split_ifs at h
    · simp only [Option.some.injEq, Prod.mk.injEq] at h
      obtain ⟨-, rfl⟩ := h
      exact ⟨ht.num_keys, ht.load_factor_pos, by simpa using ht.capacity_pos⟩
    · simp only [Option.some.injEq, Prod.mk.injEq] at h
      obtain ⟨-, rfl⟩ := h
      exact ht

theorem reachable_inv {H : Header} {t : HashTable} (h : Reachable H t) : Inv t := by
  induction h with
  | init h0 => exact inv_of_new h0
  | put key value _ ih => exact inv_Put H ih key value
  | remove key _ hr ih => exact inv_Remove H ih hr

theorem modHeader_hashInRange : modHeader.HashInRange := by
  intro key size hsize
  have h1 : (0 : Int) < size := by exact_mod_cast hsize
  have h2 := Int.emod_lt_of_pos key h1
  have h3 := Int.emod_nonneg key (ne_of_gt h1)
  show (key % (size : Int)).toNat < size
  omega



/-! ## Buckets of a table after `Put` -/

theorem Put_buckets_length (H : Header) {t : HashTable} (ht : Inv t) (key : Int) (value : String) :
    (t.Put H key value).buckets_.length = t.buckets_.length := by
  rw [Put_eq_of_inv H ht]; simp

theorem hash_lt (H : Header) (hH : H.HashInRange) {t : HashTable} (ht : Inv t) (key : Int) :
    t.hash H key < t.buckets_.length :=
  hH key _ ht.capacity_pos

/-- The bucket at index `i` after `Put(key, value)`. -/
theorem Put_bucket (H : Header) (hH : H.HashInRange) {t : HashTable} (ht : Inv t)
    (key : Int) (value : String) (i : Nat) :
    (t.Put H key value).buckets_.getD i [] =
      if i = t.hash H key then t.buckets_.getD i [] ++ [(key, value)] else t.buckets_.getD i [] := by
  rw [Put_eq_of_inv H ht]
  have hlt := hash_lt H hH ht key
  simp only [List.getD_eq_getElem?_getD, List.getElem?_set]
  by_cases h : i = t.hash H key
  · subst h; simp [hlt]
  · simp [h, Ne.symm h]

theorem searchBucket_append (key : Int) (b1 b2 : Bucket) :
    searchBucket key (b1 ++ b2) =
      match searchBucket key b1 with
      | some v => some v
      | none => searchBucket key b2 := by
  induction b1 with
  | nil => simp [searchBucket]
  | cons p rest ih =>
    simp only [List.cons_append, searchBucket]
    split_ifs
    · rfl
    · exact ih

theorem searchBucket_eq_none_iff (key : Int) (b : Bucket) :
    searchBucket key b = none ↔ ∀ p ∈ b, p.1 ≠ key := by
  induction b with
  | nil => simp [searchBucket]
  | cons p rest ih =>
    simp only [searchBucket, List.mem_cons, forall_eq_or_imp]
    split_ifs with h
    · simp [h]
    · simp [h, ih]

theorem Search_Put_self (H : Header) (hH : H.HashInRange) {t : HashTable} (ht : Inv t)
    (key : Int) (value : String) :
    (t.Put H key value).Search H key = some ((t.Search H key).getD value) := by
  unfold HashTable.Search
  simp only [HashTable.hash, Put_buckets_length H ht]
  have h := Put_bucket H hH ht key value (H.hash key t.buckets_.length)
  simp only [HashTable.hash, if_true] at h
  rw [h, searchBucket_append]
  cases searchBucket key (t.buckets_.getD (H.hash key t.buckets_.length) []) with
  | none => simp [searchBucket]
  | some w => simp

/-! ## Where stored entries come from -/

theorem getD_mem_or_nil (l : List Bucket) (i : Nat) : l.getD i [] ∈ l ∨ l.getD i [] = [] := by
  by_cases h : i < l.length
  · left
    rw [List.getD_eq_getElem _ _ h]
    exact List.getElem_mem h
  · right
    rw [List.getD_eq_default _ _ (not_lt.mp h)]

theorem keysIn_mono {P Q : Int → Prop} {t : HashTable} (h : KeysIn P t)
    (hPQ : ∀ k, P k → Q k) : KeysIn Q t :=
  fun b hb p hp => hPQ _ (h b hb p hp)

theorem keysIn_bucket {P : Int → Prop} {t : HashTable} (h : KeysIn P t) (i : Nat) :
    ∀ p ∈ t.buckets_.getD i [], P p.1 := by
  intro p hp
  rcases getD_mem_or_nil t.buckets_ i with hm | hn
  · exact h _ hm p hp
  · rw [hn] at hp; cases hp

theorem keysIn_of_new {capacity : Int} {load_factor : ℚ} {t : HashTable}
    (h : HashTable.new capacity load_factor = .ok t) (P : Int → Prop) : KeysIn P t := by
  obtain ⟨-, -, -, rfl⟩ := new_eq_ok h
  intro b hb p hp
  rw [List.eq_of_mem_replicate hb] at hp
  cases hp

theorem keysIn_Put (H : Header) {P : Int → Prop} {t : HashTable} (ht : Inv t) (h : KeysIn P t)
    (key : Int) (value : String) (hkey : P key) : KeysIn P (t.Put H key value) := by
  rw [Put_eq_of_inv H ht]
  intro b hb p hp
  rcases List.mem_or_eq_of_mem_set hb with hm | rfl
  · exact h b hm p hp
  · rcases List.mem_append.mp hp with ho | hn
    · exact keysIn_bucket h _ p ho
    · rw [List.mem_singleton.mp hn]; exact hkey

theorem keysIn_Remove (H : Header) {P : Int → Prop} {t t1 : HashTable} {r : Option String}
    {key : Int} (h : KeysIn P t) (hr : t.Remove H key = some (r, t1)) : KeysIn P t1 := by
  cases hb : t.buckets_.getD (t.hash H key) [] with
  | nil => simp only [HashTable.Remove, hb, reduceCtorEq] at hr
  | cons pair rest =>
    simp only [HashTable.Remove, hb] at hr
    split_ifs at hr
    · simp only [Option.some.injEq, Prod.mk.injEq] at hr
      obtain ⟨-, rfl⟩ := hr
      intro b hbm p hp
      rcases List.mem_or_eq_of_mem_set hbm with hm | rfl
      · exact h b hm p hp
      · have hp1 : p ∈ t.buckets_.getD (t.hash H key) [] := by
          rw [hb]; exact List.mem_of_mem_filter hp
        exact keysIn_bucket h _ p hp1
    · simp only [Option.some.injEq, Prod.mk.injEq] at hr
      obtain ⟨-, rfl⟩ := hr
      exact h

/-- After a run of calls from a table whose stored keys satisfy `P`, every
stored key satisfies `P` or is the key of a `Put` of the run. -/
theorem run_keysIn (H : Header) (ops : List Op) :
    ∀ {P : Int → Prop} {t0 t : HashTable}, Inv t0 → KeysIn P t0 → t0.run H ops = some t →
      KeysIn (fun k => P k ∨ ∃ v, Op.put k v ∈ ops) t := by
  induction ops with
  | nil =>
    intro P t0 t _ h0 hrun
    simp only [HashTable.run, Option.some.injEq] at hrun
    subst hrun
    exact keysIn_mono h0 (fun k hk => Or.inl hk)
  | cons op ops ih =>
    intro P t0 t hinv h0 hrun
    cases op with
    | put key value =>
      simp only [HashTable.run, HashTable.step, Option.some_bind] at hrun
      have h1 : KeysIn (fun k => P k ∨ k = key) (t0.Put H key value) :=
        keysIn_Put H hinv (keysIn_mono h0 (fun k hk => Or.inl hk)) key value (Or.inr rfl)
      refine keysIn_mono (ih (inv_Put H hinv key value) h1 hrun) ?_
      rintro k ((hP | rfl) | ⟨v, hv⟩)
      · exact Or.inl hP
      · exact Or.inr ⟨value, List.mem_cons_self _ _⟩
      · exact Or.inr ⟨v, List.mem_cons_of_mem _ hv⟩
    | remove key =>
      simp only [HashTable.run, HashTable.step] at hrun
      cases hr : t0.Remove H key with
      | none => simp [hr] at hrun
      | some res =>
        obtain ⟨r, t1⟩ := res
        simp only [hr, Option.map_some', Option.some_bind] at hrun
        refine keysIn_mono (ih (inv_Remove H hinv hr) (keysIn_Remove H h0 hr) hrun) ?_
        rintro k (hP | ⟨v, hv⟩)
        · exact Or.inl hP
        · exact Or.inr ⟨v, List.mem_cons_of_mem _ hv⟩

theorem Search_eq_none_of_keysIn (H : Header) {P : Int → Prop} {t : HashTable}
    (h : KeysIn P t) (key : Int) (hkey : ¬ P key) : t.Search H key = none := by
  unfold HashTable.Search
  rw [searchBucket_eq_none_iff]
  intro p hp hpk
  exact hkey (hpk ▸ keysIn_bucket h _ p hp)

/-! ## Sequences of `Put` calls -/

theorem putAll_cons (H : Header) (t : HashTable) (p : Int × String) (puts : List (Int × String)) :
    t.putAll H (p :: puts) = (t.Put H p.1 p.2).putAll H puts := rfl

theorem putAll_append (H : Header) (t : HashTable) (ps qs : List (Int × String)) :
    t.putAll H (ps ++ qs) = (t.putAll H ps).putAll H qs := by
  simp [HashTable.putAll, List.foldl_append]

theorem inv_putAll (H : Header) {t : HashTable} (ht : Inv t) (puts : List (Int × String)) :
    Inv (t.putAll H puts) := by
  induction puts generalizing t with
  | nil => exact ht
  | cons p puts ih => rw [putAll_cons]; exact ih (inv_Put H ht p.1 p.2)

theorem putAll_num_keys (H : Header) {t : HashTable} (ht : Inv t) (puts : List (Int × String)) :
    (t.putAll H puts).num_keys_ = 0 :=
  (inv_putAll H ht puts).num_keys

theorem putAll_buckets_length (H : Header) {t : HashTable} (ht : Inv t)
    (puts : List (Int × String)) :
    (t.putAll H puts).buckets_.length = t.buckets_.length := by
  induction puts generalizing t with
  | nil => rfl
  | cons p puts ih => rw [putAll_cons, ih (inv_Put H ht p.1 p.2), Put_buckets_length H ht]

theorem new_bucket_nil {capacity : Int} {load_factor : ℚ} {t : HashTable}
    (h : HashTable.new capacity load_factor = .ok t) (i : Nat) : t.buckets_.getD i [] = [] := by
  rcases getD_mem_or_nil t.buckets_ i with hm | hn
  · obtain ⟨-, -, -, rfl⟩ := new_eq_ok h
    exact List.eq_of_mem_replicate hm
  · exact hn

/-- The bucket at index `i` after a sequence of `Put` calls: the old bucket
followed by the pairs of the sequence whose key hashes to `i`, in call order. -/
theorem putAll_bucket (H : Header) (hH : H.HashInRange) (puts : List (Int × String)) :
    ∀ {t : HashTable}, Inv t → ∀ i : Nat,
      (t.putAll H puts).buckets_.getD i [] =
        t.buckets_.getD i [] ++ puts.filter (fun q => decide (i = H.hash q.1 t.buckets_.length)) := by
  induction puts with
  | nil => intro t _ i; simp [HashTable.putAll]
  | cons p puts ih =>
    intro t ht i
    rw [putAll_cons, ih (inv_Put H ht p.1 p.2) i, Put_bucket H hH ht, Put_buckets_length H ht]
    simp only [HashTable.hash, List.filter_cons]
    by_cases h : i = H.hash p.1 t.buckets_.length
    · simp [h]
    · simp [h]

theorem searchBucket_of_mem_nodup (key : Int) (value : String) :
    ∀ (b : Bucket), (b.map Prod.fst).Nodup → (key, value) ∈ b → searchBucket key b = some value := by
  intro b
  induction b with
  | nil => intro _ h; cases h
  | cons p rest ih =>
    intro hd hm
    simp only [List.map_cons, List.nodup_cons] at hd
    simp only [searchBucket]
    rcases List.mem_cons.mp hm with rfl | hr
    · simp
    · have hne : p.1 ≠ key := by
        intro he
        exact hd.1 (he ▸ List.mem_map_of_mem Prod.fst hr)
      simp only [hne, if_false]
      exact ih hd.2 hr

theorem mem_buckets_of_lt {l : List Bucket} {i : Nat} (h : i < l.length) : l.getD i [] ∈ l := by
  rw [List.getD_eq_getElem _ _ h]
  exact List.getElem_mem h

theorem exists_getD_of_mem {l : List Bucket} {b : Bucket} (h : b ∈ l) :
    ∃ i, i < l.length ∧ l.getD i [] = b := by
  obtain ⟨i, hi, rfl⟩ := List.getElem_of_mem h
  exact ⟨i, hi, List.getD_eq_getElem _ _ hi⟩

/-! ## `keys()` and `values()` -/

theorem mem_setInsert (keys : List Int) (key k : Int) :
    k ∈ setInsert keys key ↔ k ∈ keys ∨ k = key := by
  unfold setInsert
  split_ifs with h
  · constructor
    · exact Or.inl
    · rintro (h1 | rfl)
      · exact h1
      · exact h
  · simp

theorem nodup_setInsert {keys : List Int} (h : keys.Nodup) (key : Int) :
    (setInsert keys key).Nodup := by
  unfold setInsert
  split_ifs with hm
  · exact h
  · exact List.Nodup.append h (List.nodup_singleton key) (by simpa using hm)

theorem mem_foldl_setInsert (b : Bucket) (k : Int) :
    ∀ keys : List Int, k ∈ b.foldl (fun keys pair => setInsert keys pair.1) keys ↔
      k ∈ keys ∨ ∃ p ∈ b, p.1 = k := by
  induction b with
  | nil => intro keys; simp
  | cons q rest ih =>
    intro keys
    simp only [List.foldl_cons, ih, mem_setInsert, List.mem_cons, exists_eq_or_imp]
    constructor
    · rintro ((h | h) | h)
      · exact Or.inl h
      · exact Or.inr (Or.inl h.symm)
      · exact Or.inr (Or.inr h)
    · rintro (h | h | h)
      · exact Or.inl (Or.inl h)
      · exact Or.inl (Or.inr h.symm)
      · exact Or.inr h

theorem nodup_foldl_setInsert (b : Bucket) :
    ∀ keys : List Int, keys.Nodup → (b.foldl (fun keys pair => setInsert keys pair.1) keys).Nodup := by
  induction b with
  | nil => intro keys h; exact h
  | cons q rest ih => intro keys h; exact ih _ (nodup_setInsert h q.1)

theorem mem_foldl_buckets (bs : List Bucket) (k : Int) :
    ∀ keys : List Int,
      k ∈ bs.foldl (fun keys bucket => bucket.foldl (fun keys pair => setInsert keys pair.1) keys)
        keys ↔ k ∈ keys ∨ ∃ b ∈ bs, ∃ p ∈ b, p.1 = k := by
  induction bs with
  | nil => intro keys; simp
  | cons b rest ih =>
    intro keys
    simp only [List.foldl_cons, ih, mem_foldl_setInsert, List.mem_cons, exists_eq_or_imp]
    exact or_assoc

theorem nodup_foldl_buckets (bs : List Bucket) :
    ∀ keys : List Int, keys.Nodup →
      (bs.foldl (fun keys bucket => bucket.foldl (fun keys pair => setInsert keys pair.1) keys)
        keys).Nodup := by
  induction bs with
  | nil => intro keys h; exact h
  | cons b rest ih => intro keys h; exact ih _ (nodup_foldl_setInsert b keys h)

/-- The result of `keys()` holds exactly the keys of the stored entries. -/
theorem mem_keys (t : HashTable) (k : Int) :
    k ∈ t.keys ↔ ∃ b ∈ t.buckets_, ∃ p ∈ b, p.1 = k := by
  unfold HashTable.keys
  rw [mem_foldl_buckets]
  simp

/-- The result of `keys()` holds no key twice. -/
theorem keys_nodup (t : HashTable) : t.keys.Nodup :=
  nodup_foldl_buckets t.buckets_ [] List.nodup_nil

theorem foldl_push_values (b : Bucket) :
    ∀ values : List String,
      b.foldl (fun values pair => values ++ [pair.2]) values = values ++ b.map Prod.snd := by
  induction b with
  | nil => intro values; simp
  | cons q rest ih => intro values; simp [ih]

theorem foldl_buckets_values (bs : List Bucket) :
    ∀ values : List String,
      bs.foldl (fun values bucket => bucket.foldl (fun values pair => values ++ [pair.2]) values)
        values = values ++ concatValues bs := by
  induction bs with
  | nil => intro values; simp [concatValues]
  | cons b rest ih =>
    intro values
    rw [List.foldl_cons, ih, foldl_push_values, concatValues, List.append_assoc]

theorem length_concatValues (bs : List Bucket) : (concatValues bs).length = entryCount bs := by
  induction bs with
  | nil => rfl
  | cons b rest ih => simp [concatValues, entryCount, ih]

theorem entryCount_replicate (n : Nat) : entryCount (List.replicate n []) = 0 := by
  induction n with
  | zero => rfl
  | succ n ih => simp [List.replicate_succ, entryCount, ih]

theorem entryCount_set_append (p : Entry) :
    ∀ (bs : List Bucket) (i : Nat), i < bs.length →
      entryCount (bs.set i (bs.getD i [] ++ [p])) = entryCount bs + 1 := by
  intro bs
  induction bs with
  | nil => intro i h; cases h
  | cons b rest ih =>
    intro i h
    cases i with
    | zero => simp [entryCount]; omega
    | succ j =>
      have hj : j < rest.length := by simpa using h
      have := ih j hj
      simp only [List.getD_eq_getElem?_getD, List.getElem?_cons_succ, List.set_cons_succ,
        entryCount] at this ⊢
      omega

theorem entryCount_Put (H : Header) (hH : H.HashInRange) {t : HashTable} (ht : Inv t)
    (key : Int) (value : String) :
    entryCount (t.Put H key value).buckets_ = entryCount t.buckets_ + 1 := by
  rw [Put_eq_of_inv H ht]
  exact entryCount_set_append (key, value) t.buckets_ _ (hash_lt H hH ht key)

theorem entryCount_putAll (H : Header) (hH : H.HashInRange) (puts : List (Int × String)) :
    ∀ {t : HashTable}, Inv t →
      entryCount (t.putAll H puts).buckets_ = entryCount t.buckets_ + puts.length := by
  induction puts with
  | nil => intro t _; rfl
  | cons p puts ih =>
    intro t ht
    rw [putAll_cons, ih (inv_Put H ht p.1 p.2), entryCount_Put H hH ht, List.length_cons]
    omega

/-! ## The three cases of `Remove` -/

theorem Remove_of_nil (H : Header) (t : HashTable) (key : Int)
    (hb : t.buckets_.getD (t.hash H key) [] = []) : t.Remove H key = none := by
  simp only [HashTable.Remove, hb]

theorem Remove_of_cons_eq (H : Header) (t : HashTable) (key : Int) (pair : Entry) (rest : Bucket)
    (hb : t.buckets_.getD (t.hash H key) [] = pair :: rest) (hk : pair.1 = key) :
    t.Remove H key = some (some pair.2,
      { t with buckets_ := t.buckets_.set (t.hash H key) ((pair :: rest).filter (fun p => p ≠ pair)) }) := by
  simp only [HashTable.Remove, hb, hk, if_true]

theorem Remove_of_cons_ne (H : Header) (t : HashTable) (key : Int) (pair : Entry) (rest : Bucket)
    (hb : t.buckets_.getD (t.hash H key) [] = pair :: rest) (hk : pair.1 ≠ key) :
    t.Remove H key = some (none, t) := by
  simp only [HashTable.Remove, hb, hk, if_false]

theorem lt_length_of_getD_ne_nil {l : List Bucket} {i : Nat} (h : l.getD i [] ≠ []) :
    i < l.length := by
  by_contra hn
  exact h (List.getD_eq_default _ _ (not_lt.mp hn))

theorem getD_set_self {l : List Bucket} {i : Nat} (h : i < l.length) (b : Bucket) :
    (l.set i b).getD i [] = b := by
  simp [List.getD_eq_getElem?_getD, h]

theorem getD_set_ne {l : List Bucket} {i j : Nat} (h : i ≠ j) (b : Bucket) :
    (l.set i b).getD j [] = l.getD j [] := by
  simp [List.getD_eq_getElem?_getD, h]

/-- After a `Remove` with a result the table has as many buckets as before,
the same counter and load factor, and each bucket is the old one, or the old
one without the copies of one pair whose key is the removed key. -/
theorem Remove_effect (H : Header) {t t1 : HashTable} {r : Option String} {key : Int}
    (h : t.Remove H key = some (r, t1)) :
    t1.buckets_.length = t.buckets_.length ∧ t1.num_keys_ = t.num_keys_ ∧
      t1.load_factor_ = t.load_factor_ ∧
      ∀ i : Nat, t1.buckets_.getD i [] = t.buckets_.getD i [] ∨
        ∃ pair : Entry, pair.1 = key ∧
          t1.buckets_.getD i [] = (t.buckets_.getD i []).filter (fun p => p ≠ pair) := by
  cases hb : t.buckets_.getD (t.hash H key) [] with
  | nil => rw [Remove_of_nil H t key hb] at h; cases h
  | cons pair rest =>
    by_cases hk : pair.1 = key
    · rw [Remove_of_cons_eq H t key pair rest hb hk] at h
      simp only [Option.some.injEq, Prod.mk.injEq] at h
      obtain ⟨-, rfl⟩ := h
      refine ⟨by simp, rfl, rfl, fun i => ?_⟩
      by_cases hi : t.hash H key = i
      · right
        refine ⟨pair, hk, ?_⟩
        have hlt : t.hash H key < t.buckets_.length :=
          lt_length_of_getD_ne_nil (by rw [hb]; exact List.cons_ne_nil _ _)
        subst hi
        show (t.buckets_.set _ _).getD _ [] = _
        rw [getD_set_self hlt, hb]
      · left
        exact getD_set_ne hi _
    · rw [Remove_of_cons_ne H t key pair rest hb hk] at h
      simp only [Option.some.injEq, Prod.mk.injEq] at h
      obtain ⟨-, rfl⟩ := h
      exact ⟨rfl, rfl, rfl, fun i => Or.inl rfl⟩

theorem searchBucket_filter_ne (key : Int) (pair : Entry) (hne : pair.1 ≠ key) (b : Bucket) :
    searchBucket key (b.filter (fun p => p ≠ pair)) = searchBucket key b := by
  induction b with
  | nil => rfl
  | cons q rest ih =>
    by_cases hq : q = pair
    · subst hq
      simp only [List.filter_cons, ne_eq, not_true_eq_false, decide_False, searchBucket, hne,
        if_false]
      exact ih
    · by_cases hqk : q.1 = key
      · simp [List.filter_cons, searchBucket, hq, hqk]
      · simp only [List.filter_cons, ne_eq, hq, not_false_eq_true, decide_True, searchBucket, hqk,
          if_true, if_false]
        exact ih

/-! ## Placement of the stored entries -/

theorem wellPlaced_of_new (H : Header) {capacity : Int} {load_factor : ℚ} {t : HashTable}
    (h : HashTable.new capacity load_factor = .ok t) : WellPlaced H t := by
  intro i p hp
  rw [new_bucket_nil h] at hp
  cases hp

theorem wellPlaced_Put (H : Header) (hH : H.HashInRange) {t : HashTable} (ht : Inv t)
    (hw : WellPlaced H t) (key : Int) (value : String) : WellPlaced H (t.Put H key value) := by
  intro i p hp
  rw [Put_bucket H hH ht] at hp
  simp only [HashTable.hash, Put_buckets_length H ht]
  split_ifs at hp with hi
  · rcases List.mem_append.mp hp with ho | hn
    · exact hw i p ho
    · rw [List.mem_singleton.mp hn]
      exact hi.symm
  · exact hw i p hp

theorem wellPlaced_Remove (H : Header) {t t1 : HashTable} {r : Option String} {key : Int}
    (hw : WellPlaced H t) (h : t.Remove H key = some (r, t1)) : WellPlaced H t1 := by
  obtain ⟨hlen, -, -, hb⟩ := Remove_effect H h
  intro i p hp
  simp only [HashTable.hash, hlen]
  rcases hb i with he | ⟨pair, -, he⟩
  · rw [he] at hp
    exact hw i p hp
  · rw [he] at hp
    exact hw i p (List.mem_of_mem_filter hp)

theorem reachable_wellPlaced (H : Header) (hH : H.HashInRange) {t : HashTable}
    (h : Reachable H t) : WellPlaced H t := by
  induction h with
  | init h0 => exact wellPlaced_of_new H h0
  | put key value hr ih => exact wellPlaced_Put H hH (reachable_inv hr) ih key value
  | remove key _ hrem ih => exact wellPlaced_Remove H ih hrem

theorem values_length (t : HashTable) : t.values.length = entryCount t.buckets_ := by
  unfold HashTable.values
  rw [foldl_buckets_values, List.nil_append, length_concatValues]

theorem setInsert_of_mem {keys : List Int} {key : Int} (h : key ∈ keys) :
    setInsert keys key = keys := by
  unfold setInsert
  rw [if_pos h]

/-- Appending to a bucket a pair whose key the bucket already holds leaves the
result of the two loops of `keys()` as it was. -/
theorem foldl_buckets_set_append (p : Entry) :
    ∀ (bs : List Bucket) (i : Nat), (∃ q ∈ bs.getD i [], q.1 = p.1) → ∀ keys : List Int,
      (bs.set i (bs.getD i [] ++ [p])).foldl
          (fun keys bucket => bucket.foldl (fun keys pair => setInsert keys pair.1) keys) keys =
        bs.foldl (fun keys bucket => bucket.foldl (fun keys pair => setInsert keys pair.1) keys)
          keys := by
  intro bs
  induction bs with
  | nil => intro i _ keys; rfl
  | cons b rest ih =>
    intro i hq keys
    cases i with
    | zero =>
      obtain ⟨q, hqb, hqk⟩ := hq
      have hmem : p.1 ∈ b.foldl (fun keys pair => setInsert keys pair.1) keys :=
        (mem_foldl_setInsert b p.1 keys).mpr (Or.inr ⟨q, by simpa using hqb, hqk⟩)
      have hins : setInsert (b.foldl (fun keys pair => setInsert keys pair.1) keys) p.1 =
          b.foldl (fun keys pair => setInsert keys pair.1) keys := setInsert_of_mem hmem
      simp only [List.set_cons_zero, List.foldl_cons, List.getD_cons_zero, List.foldl_append,
        List.foldl_nil, hins]
    | succ j =>
      simp only [List.set_cons_succ, List.foldl_cons, List.getD_cons_succ]
      exact ih j (by simpa using hq) _

theorem exists_mem_of_searchBucket_eq_some {key : Int} {value : String} {b : Bucket}
    (h : searchBucket key b = some value) : ∃ q ∈ b, q.1 = key := by
  by_contra hn
  push_neg at hn
  rw [(searchBucket_eq_none_iff key b).mpr hn] at h
  cases h

/-! ## `Put` on an arbitrary table state -/

/-- The two branches of `Put`, named by the threshold test. -/
theorem Put_eq (H : Header) (t : HashTable) (key : Int) (value : String) :
    t.Put H key value =
      if thresholdTest t.num_keys_ t.buckets_.length t.load_factor_ = true then
        HashTable.mk (grownBuckets H t key value) t.num_keys_ t.load_factor_
      else
        HashTable.mk (appendedBuckets H t key value) t.num_keys_ t.load_factor_ := by
  unfold HashTable.Put grownBuckets appendedBuckets
  simp only [HashTable.hash, HashTable.capacity, List.length_set, Int.cast_natCast]

theorem Put_num_keys (H : Header) (t : HashTable) (key : Int) (value : String) :
    (t.Put H key value).num_keys_ = t.num_keys_ := by
  rw [Put_eq]
  split_ifs <;> rfl

theorem Search_Put_of_ne (H : Header) (hH : H.HashInRange) {t : HashTable} (ht : Inv t)
    {key key1 : Int} (hne : key ≠ key1) (value : String) :
    (t.Put H key value).Search H key1 = t.Search H key1 := by
  unfold HashTable.Search
  simp only [HashTable.hash, Put_buckets_length H ht]
  have h := Put_bucket H hH ht key value (H.hash key1 t.buckets_.length)
  simp only [HashTable.hash] at h
  rw [h]
  split_ifs
  · rw [searchBucket_append]
    cases searchBucket key1 (t.buckets_.getD (H.hash key1 t.buckets_.length) []) with
    | none => simp [searchBucket, hne]
    | some w => rfl
  · rfl

theorem Search_Remove_of_ne (H : Header) {t t1 : HashTable} {r : Option String} {key key1 : Int}
    (hne : key ≠ key1) (h : t.Remove H key = some (r, t1)) :
    t1.Search H key1 = t.Search H key1 := by
  obtain ⟨hlen, -, -, hb⟩ := Remove_effect H h
  unfold HashTable.Search
  simp only [HashTable.hash, hlen]
  rcases hb (H.hash key1 t.buckets_.length) with he | ⟨pair, hpk, he⟩
  · rw [he]
  · rw [he]
    exact searchBucket_filter_ne key1 pair (by rw [hpk]; exact hne) _

/-! ## Runs of calls keep the counter and the capacity -/

theorem Remove_length (H : Header) {t t1 : HashTable} {r : Option String} {key : Int}
    (h : t.Remove H key = some (r, t1)) : t1.buckets_.length = t.buckets_.length :=
  (Remove_effect H h).1

theorem run_inv (H : Header) (ops : List Op) :
    ∀ {t0 t : HashTable}, Inv t0 → t0.run H ops = some t →
      Inv t ∧ t.buckets_.length = t0.buckets_.length := by
  induction ops with
  | nil =>
    intro t0 t hinv hrun
    simp only [HashTable.run, Option.some.injEq] at hrun
    subst hrun
    exact ⟨hinv, rfl⟩
  | cons op ops ih =>
    intro t0 t hinv hrun
    cases op with
    | put key value =>
      simp only [HashTable.run, HashTable.step, Option.some_bind] at hrun
      obtain ⟨h1, h2⟩ := ih (inv_Put H hinv key value) hrun
      exact ⟨h1, by rw [h2, Put_buckets_length H hinv]⟩
    | remove key =>
      simp only [HashTable.run, HashTable.step] at hrun
      cases hr : t0.Remove H key with
      | none => simp [hr] at hrun
      | some res =>
        obtain ⟨r, t1⟩ := res
        simp only [hr, Option.map_some', Option.some_bind] at hrun
        obtain ⟨h1, h2⟩ := ih (inv_Remove H hinv hr) hrun
        exact ⟨h1, by rw [h2, Remove_length H hr]⟩

theorem not_threshold_of_inv {t : HashTable} (ht : Inv t) :
    ¬ ((t.size : ℚ) / (t.capacity : ℚ) ≥ t.load_factor) := by
  simp only [HashTable.size, HashTable.load_factor, ht.num_keys, Int.cast_zero, zero_div, ge_iff_le,
    not_le]
  exact ht.load_factor_pos

/-! ## Concrete tables -/

theorem new_table4 : HashTable.new 4 0.75 = .ok table4 := by
  simp [HashTable.new, table4, num_keys_init]; norm_num

theorem new_table1 : HashTable.new 1 1 = .ok table1 := by
  simp [HashTable.new, table1, num_keys_init]

theorem table4_reachable (H : Header) : Reachable H table4 := Reachable.init new_table4

theorem table1_reachable (H : Header) : Reachable H table1 := Reachable.init new_table1

theorem table4_inv : Inv table4 := reachable_inv (table4_reachable modHeader)

theorem table1_inv : Inv table1 := reachable_inv (table1_reachable modHeader)

theorem table1_put_put :
    (table1.Put modHeader 1 "a").Put modHeader 2 "b" =
      { buckets_ := [[(1, "a"), (2, "b")]], num_keys_ := 0, load_factor_ := 1 } := by
  rw [Put_eq_of_inv modHeader (inv_Put modHeader table1_inv 1 "a"), Put_eq_of_inv modHeader table1_inv]
  rfl

theorem table4_run_put_remove_put :
    table4.run modHeader [.put 1 "a", .remove 1, .put 2 "b"] =
      some { buckets_ := [[], [], [(2, "b")], []], num_keys_ := 0, load_factor_ := 0.75 } := by
  have h1 : table4.Put modHeader 1 "a" =
      { buckets_ := [[], [(1, "a")], [], []], num_keys_ := 0, load_factor_ := 0.75 } := by
    rw [Put_eq_of_inv modHeader table4_inv]; rfl
  have h2 : HashTable.Remove modHeader
      { buckets_ := [[], [(1, "a")], [], []], num_keys_ := 0, load_factor_ := 0.75 } 1 =
      some (some "a", table4) := rfl
  have h3 : table4.Put modHeader 2 "b" =
      { buckets_ := [[], [], [(2, "b")], []], num_keys_ := 0, load_factor_ := 0.75 } := by
    rw [Put_eq_of_inv modHeader table4_inv]; rfl
  simp only [HashTable.run, HashTable.step, Option.some_bind, h1, h2, h3, Option.map_some']

theorem table4_put3 :
    table4.putAll modHeader [(1, "a"), (2, "b"), (3, "c")] =
      { buckets_ := [[], [(1, "a")], [(2, "b")], [(3, "c")]], num_keys_ := 0,
        load_factor_ := 0.75 } := by
  simp only [HashTable.putAll, List.foldl]
  rw [Put_eq_of_inv modHeader (inv_Put modHeader (inv_Put modHeader table4_inv 1 "a") 2 "b"),
    Put_eq_of_inv modHeader (inv_Put modHeader table4_inv 1 "a"),
    Put_eq_of_inv modHeader table4_inv]
  rfl

theorem table4_put1_search : (table4.Put modHeader 1 "a").Search modHeader 1 = some "a" := by
  rw [Search_Put_self modHeader modHeader_hashInRange table4_inv]
  rfl

theorem table4_put_1_5 : (table4.Put modHeader 1 "a").Put modHeader 5 "b" = table4_1_5 := by
  rw [Put_eq_of_inv modHeader (inv_Put modHeader table4_inv 1 "a"),
    Put_eq_of_inv modHeader table4_inv]
  rfl

theorem table4_1_5_reachable : Reachable modHeader table4_1_5 := by
  rw [← table4_put_1_5]
  exact Reachable.put 5 "b" (Reachable.put 1 "a" (table4_reachable modHeader))

theorem tableHalf_new_capacity :
    ⌊((appendedBuckets modHeader tableHalf 5 "c").length : ℚ) * modHeader.kGrowthCoefficient⌋.toNat
      = 8 := by
  have hl : (appendedBuckets modHeader tableHalf 5 "c").length = 4 := rfl
  rw [hl]
  show ⌊((4 : ℕ) : ℚ) * 2⌋.toNat = 8
  have h8 : ((4 : ℕ) : ℚ) * 2 = ((8 : ℤ) : ℚ) := by norm_num
  rw [h8, Int.floor_intCast]
  rfl

theorem tableHalf_threshold :
    (tableHalf.num_keys_ : ℚ) / (tableHalf.buckets_.length : ℚ) ≥ tableHalf.load_factor_ := by
  show ((2 : ℤ) : ℚ) / ((4 : ℕ) : ℚ) ≥ 0.5
  norm_num

theorem doubleDiv_2_4 : doubleDiv 2 4 = 1 / 2 := by
  have h1 : natToDouble (2 : Int).toNat = 2 := by decide
  have h2 : natToDouble 4 = 4 := by decide
  have h3 : roundQuotParts 2 4 = (4503599627370496, 9007199254740992) := by decide
  simp only [doubleDiv, h1, h2, roundQuot, h3]
  norm_num

theorem tableHalf_thresholdTest :
    thresholdTest tableHalf.num_keys_ tableHalf.buckets_.length tableHalf.load_factor_ = true := by
  show thresholdTest 2 4 0.5 = true
  rw [thresholdTest_of_pos 2 (by decide), doubleDiv_2_4]
  norm_num

theorem tableHalf_put :
    tableHalf.Put modHeader 5 "c" =
      { buckets_ := [[], [(1, "a"), (5, "c")], [(2, "b")], [], [], [(1, "a"), (5, "c")], [], []],
        num_keys_ := 2, load_factor_ := 0.5 } := by
  rw [Put_eq, if_pos tableHalf_thresholdTest]
  simp only [grownBuckets, tableHalf_new_capacity]
  rfl

theorem tableHalf_wellPlaced : WellPlaced modHeader tableHalf := by
  intro i p hp
  match i, hp with
  | 0, hp => simp [tableHalf] at hp
  | 1, hp =>
    have h1 : p = (1, "a") := by simpa [tableHalf] using hp
    subst h1; rfl
  | 2, hp =>
    have h2 : p = (2, "b") := by simpa [tableHalf] using hp
    subst h2; rfl
  | 3, hp => simp [tableHalf] at hp
  | n + 4, hp => simp [tableHalf] at hp

/-! ## Claims -/

/-- C1 (as stated, refuted): on the table built by `HashTable(4, 0.75)` with a
modulo hash, after `Put(1, "a")` and then `Put(1, "b")` the call `Search(1)`
returns `"a"`, not the value `"b"` just put. -/
theorem C1_put_existing_key_counterexample :
    HashTable.new 4 0.75 = .ok table4 ∧
      ((table4.Put modHeader 1 "a").Put modHeader 1 "b").Search modHeader 1 = some "a" ∧
      ((table4.Put modHeader 1 "a").Put modHeader 1 "b").Search modHeader 1 ≠ some "b" := by
  have h : ((table4.Put modHeader 1 "a").Put modHeader 1 "b").Search modHeader 1 = some "a" := by
    have h4 : Inv table4 := reachable_inv (table4_reachable modHeader)
    rw [Search_Put_self modHeader modHeader_hashInRange (inv_Put modHeader h4 1 "a"),
      Search_Put_self modHeader modHeader_hashInRange h4]
    rfl
  refine ⟨new_table4, h, ?_⟩
  rw [h]
  decide

/-- C1 (amended): on every reachable table, immediately after `Put(k, v)` the
call `ContainsKey(k)` is true; `Search(k)` returns `v` when `k` was absent
before the `Put`, and returns the value it returned before the `Put` when `k`
was already present. -/
theorem C1_put_then_search (H : Header) (hH : H.HashInRange) (t : HashTable)
    (ht : Reachable H t) (k : Int) (v : String) :
    (t.Put H k v).ContainsKey H k = true ∧
      (t.ContainsKey H k = false → (t.Put H k v).Search H k = some v) ∧
      (t.ContainsKey H k = true → (t.Put H k v).Search H k = t.Search H k) := by
  have h := Search_Put_self H hH (reachable_inv ht) k v
  refine ⟨by simp [HashTable.ContainsKey, h], ?_, ?_⟩
  · intro hc
    simp only [HashTable.ContainsKey] at hc
    cases hs : t.Search H k with
    | none => rw [h, hs]; rfl
    | some w => rw [hs] at hc; cases hc
  · intro hc
    simp only [HashTable.ContainsKey] at hc
    cases hs : t.Search H k with
    | none => rw [hs] at hc; cases hc
    | some w => rw [h, hs]; rfl

/-- Witness of C1 (amended): the table after `HashTable(4, 0.75)` and
`Put(1, "a")`, with `Put(1, "b")`. -/
theorem C1_put_then_search_witness :
    modHeader.HashInRange ∧ Reachable modHeader (table4.Put modHeader 1 "a") ∧
      (((table4.Put modHeader 1 "a").Put modHeader 1 "b").ContainsKey modHeader 1 = true ∧
        ((table4.Put modHeader 1 "a").ContainsKey modHeader 1 = false →
          ((table4.Put modHeader 1 "a").Put modHeader 1 "b").Search modHeader 1 = some "b") ∧
        ((table4.Put modHeader 1 "a").ContainsKey modHeader 1 = true →
          ((table4.Put modHeader 1 "a").Put modHeader 1 "b").Search modHeader 1 =
            (table4.Put modHeader 1 "a").Search modHeader 1)) :=
  ⟨modHeader_hashInRange, Reachable.put 1 "a" (table4_reachable modHeader),
    C1_put_then_search modHeader modHeader_hashInRange (table4.Put modHeader 1 "a")
      (Reachable.put 1 "a" (table4_reachable modHeader)) 1 "b"⟩

/-- C2 (code evaluated at the failing input): on the table built by
`HashTable(1, 1.0)` after `Put(1, "a")` and `Put(2, "b")`, key `2` is present
(`Search(2)` returns `"b"`) and sits second in the only bucket; `Remove(2)`
returns absent and leaves the table as it was, so key `2` is still present. -/
theorem C2_remove_second_entry_returns_absent :
    HashTable.new 1 1 = .ok table1 ∧
      ((table1.Put modHeader 1 "a").Put modHeader 2 "b").Search modHeader 2 = some "b" ∧
      ((table1.Put modHeader 1 "a").Put modHeader 2 "b").Remove modHeader 2 =
        some (none, (table1.Put modHeader 1 "a").Put modHeader 2 "b") ∧
      ((table1.Put modHeader 1 "a").Put modHeader 2 "b").ContainsKey modHeader 2 = true := by
  rw [table1_put_put]
  exact ⟨new_table1, rfl, rfl, rfl⟩

/-- C3 (code evaluated at the failing input): on the freshly built table
`HashTable(4, 0.75)` key `5` is absent and its bucket is empty; `Remove(5)`
never enters its loop and reaches the end of the function without a `return`,
so the call has no defined result instead of the result absent. -/
theorem C3_remove_on_empty_bucket_has_no_result :
    HashTable.new 4 0.75 = .ok table4 ∧
      table4.ContainsKey modHeader 5 = false ∧
      table4.buckets_.getD (table4.hash modHeader 5) [] = [] ∧
      table4.Remove modHeader 5 = none :=
  ⟨new_table4, rfl, rfl, rfl⟩

/-- C4: for a successfully constructed table, a sequence of `Put` and `Remove`
calls run on it, and a key `k` that is the key of no `Put` of the sequence,
`Search(k)` on the resulting table returns absent and `ContainsKey(k)` is false;
with the empty sequence this is the freshly constructed table. -/
theorem C4_search_never_put_key (H : Header) (capacity : Int)
    (load_factor : ℚ) (t0 : HashTable) (h0 : HashTable.new capacity load_factor = .ok t0)
    (ops : List Op) (t : HashTable) (hrun : t0.run H ops = some t) (k : Int)
    (hk : ∀ v, Op.put k v ∉ ops) :
    t.Search H k = none ∧ t.ContainsKey H k = false := by
  have h1 := run_keysIn H ops (inv_of_new h0) (keysIn_of_new h0 (fun _ => False)) hrun
  have h2 : t.Search H k = none :=
    Search_eq_none_of_keysIn H h1 k (by rintro (hf | ⟨v, hv⟩); exact hf; exact hk v hv)
  exact ⟨h2, by simp [HashTable.ContainsKey, h2]⟩

/-- Witness of C4: `HashTable(4, 0.75)`, then `Put(1, "a")`, `Remove(1)`,
`Put(2, "b")`; key `5` was never put (it shares the bucket of key `1`). -/
theorem C4_search_never_put_key_witness :
    HashTable.new 4 0.75 = .ok table4 ∧
      table4.run modHeader [.put 1 "a", .remove 1, .put 2 "b"] =
        some { buckets_ := [[], [], [(2, "b")], []], num_keys_ := 0, load_factor_ := 0.75 } ∧
      (∀ v, Op.put 5 v ∉ [Op.put 1 "a", Op.remove 1, Op.put 2 "b"]) ∧
      (HashTable.Search modHeader
          { buckets_ := [[], [], [(2, "b")], []], num_keys_ := 0, load_factor_ := 0.75 } 5 = none ∧
        HashTable.ContainsKey modHeader
          { buckets_ := [[], [], [(2, "b")], []], num_keys_ := 0, load_factor_ := 0.75 } 5 = false) :=
  ⟨new_table4, table4_run_put_remove_put, by intro v; simp,
    C4_search_never_put_key modHeader 4 0.75 table4 new_table4
      [.put 1 "a", .remove 1, .put 2 "b"] _ table4_run_put_remove_put 5 (by intro v; simp)⟩

/-- C5: construction fails, with the `logic_error` the constructor throws, if
and only if `capacity <= 0` or `load_factor <= 0` or `load_factor > 1`; for every
other argument pair it succeeds with `capacity() == capacity`,
`load_factor() == load_factor`, `size() == 0` and all buckets empty. -/
theorem C5_constructor (capacity : Int) (load_factor : ℚ) :
    ((∃ what, HashTable.new capacity load_factor = .error (.logic_error what)) ↔
        (capacity ≤ 0 ∨ load_factor ≤ 0 ∨ load_factor > 1)) ∧
      (¬ (capacity ≤ 0 ∨ load_factor ≤ 0 ∨ load_factor > 1) →
        ∃ t, HashTable.new capacity load_factor = .ok t ∧ t.capacity = capacity ∧
          t.load_factor = load_factor ∧ t.size = 0 ∧ ∀ b ∈ t.buckets_, b = []) := by
  constructor
  · constructor
    · rintro ⟨what, h⟩
      by_contra hn
      push_neg at hn
      simp [HashTable.new, not_le.mpr hn.1, not_le.mpr hn.2.1, not_lt.mpr hn.2.2] at h
    · intro h
      by_cases hc : capacity ≤ 0
      · exact ⟨"hash table capacity must be greater than zero",
          by simp only [HashTable.new, hc, if_true]⟩
      · have hl : load_factor ≤ 0 ∨ load_factor > 1 := by tauto
        exact ⟨"hash table load factor must be in range [0...1]",
          by simp only [HashTable.new, hc, hl, if_true, if_false]⟩
  · intro hn
    push_neg at hn
    refine ⟨{ buckets_ := List.replicate capacity.toNat [], num_keys_ := 0,
              load_factor_ := load_factor }, ?_, ?_, rfl, rfl, ?_⟩
    · simp [HashTable.new, num_keys_init, not_le.mpr hn.1, not_le.mpr hn.2.1, not_lt.mpr hn.2.2]
    · simp only [HashTable.capacity, List.length_replicate]
      omega
    · intro b hb
      exact List.eq_of_mem_replicate hb

/-- Witness of C5: `HashTable(4, 0.75)` succeeds with four empty buckets. -/
theorem C5_constructor_witness :
    ((∃ what, HashTable.new 4 0.75 = .error (.logic_error what)) ↔
        ((4 : Int) ≤ 0 ∨ (0.75 : ℚ) ≤ 0 ∨ (0.75 : ℚ) > 1)) ∧
      (¬ ((4 : Int) ≤ 0 ∨ (0.75 : ℚ) ≤ 0 ∨ (0.75 : ℚ) > 1) →
        ∃ t, HashTable.new 4 0.75 = .ok t ∧ t.capacity = 4 ∧
          t.load_factor = 0.75 ∧ t.size = 0 ∧ ∀ b ∈ t.buckets_, b = []) :=
  C5_constructor 4 0.75

/-- C6 (code evaluated at the failing input): after `HashTable(4, 0.75)` and the
three `Put` calls with the distinct keys 1, 2, 3, `size()` is `0`, not `3`:
no statement of `Put` writes `num_keys_`. -/
theorem C6_size_after_three_puts_is_zero :
    HashTable.new 4 0.75 = .ok table4 ∧
      (table4.putAll modHeader [(1, "a"), (2, "b"), (3, "c")]).size = 0 ∧
      (table4.putAll modHeader [(1, "a"), (2, "b"), (3, "c")]).size ≠ 3 := by
  rw [table4_put3]
  exact ⟨new_table4, rfl, by decide⟩

/-- C7 (code evaluated at the failing input): after `HashTable(4, 0.75)` and
`Put(1,"a")`, `Put(2,"b")`, `Put(3,"c")`, where `3 / 4 >= 0.75`, `capacity()` is
still `4`, not `8`: the threshold test reads the counter, which is still `0`. -/
theorem C7_capacity_after_three_puts_is_four :
    HashTable.new 4 0.75 = .ok table4 ∧ (3 : ℚ) / 4 ≥ 0.75 ∧
      (table4.putAll modHeader [(1, "a"), (2, "b"), (3, "c")]).capacity = 4 ∧
      (table4.putAll modHeader [(1, "a"), (2, "b"), (3, "c")]).capacity ≠ 8 := by
  rw [table4_put3]
  exact ⟨new_table4, by norm_num, rfl, by decide⟩

/-- C8: for a successfully constructed table and a sequence of `Put` calls with
pairwise distinct keys run on it, `Search(k_i)` on the final table returns `v_i`
for every pair `(k_i, v_i)` of the sequence, wherever it stands in the sequence. -/
theorem C8_search_after_distinct_puts (H : Header) (hH : H.HashInRange) (capacity : Int)
    (load_factor : ℚ) (t0 : HashTable) (h0 : HashTable.new capacity load_factor = .ok t0)
    (puts : List (Int × String)) (hd : (puts.map Prod.fst).Nodup)
    (k : Int) (v : String) (hkv : (k, v) ∈ puts) :
    (t0.putAll H puts).Search H k = some v := by
  have hinv : Inv t0 := inv_of_new h0
  unfold HashTable.Search
  simp only [HashTable.hash, putAll_buckets_length H hinv]
  rw [putAll_bucket H hH puts hinv, new_bucket_nil h0, List.nil_append]
  apply searchBucket_of_mem_nodup
  · exact hd.sublist ((List.filter_sublist puts).map Prod.fst)
  · exact List.mem_filter.mpr ⟨hkv, by simp⟩

/-- Witness of C8: `HashTable(4, 0.75)` after `Put(1,"a")`, `Put(2,"b")`,
`Put(3,"c")`: `Search(1)`, `Search(2)`, `Search(3)` return `"a"`, `"b"`, `"c"`. -/
theorem C8_search_after_distinct_puts_witness :
    modHeader.HashInRange ∧ HashTable.new 4 0.75 = .ok table4 ∧
      (([(1, "a"), (2, "b"), (3, "c")] : List (Int × String)).map Prod.fst).Nodup ∧
      (table4.putAll modHeader [(1, "a"), (2, "b"), (3, "c")]).Search modHeader 1 = some "a" ∧
      (table4.putAll modHeader [(1, "a"), (2, "b"), (3, "c")]).Search modHeader 2 = some "b" ∧
      (table4.putAll modHeader [(1, "a"), (2, "b"), (3, "c")]).Search modHeader 3 = some "c" :=
  ⟨modHeader_hashInRange, new_table4, by decide,
    C8_search_after_distinct_puts modHeader modHeader_hashInRange 4 0.75 table4 new_table4
      [(1, "a"), (2, "b"), (3, "c")] (by decide) 1 "a" (by simp),
    C8_search_after_distinct_puts modHeader modHeader_hashInRange 4 0.75 table4 new_table4
      [(1, "a"), (2, "b"), (3, "c")] (by decide) 2 "b" (by simp),
    C8_search_after_distinct_puts modHeader modHeader_hashInRange 4 0.75 table4 new_table4
      [(1, "a"), (2, "b"), (3, "c")] (by decide) 3 "c" (by simp)⟩

/-- C9: for a successfully constructed table and a sequence of `Put` calls run
on it (no `Remove`), `keys()` holds no key twice and holds exactly the keys
that were put, also when a key was put more than once. -/
theorem C9_keys_after_puts (H : Header) (hH : H.HashInRange) (capacity : Int)
    (load_factor : ℚ) (t0 : HashTable) (h0 : HashTable.new capacity load_factor = .ok t0)
    (puts : List (Int × String)) :
    (t0.putAll H puts).keys.Nodup ∧
      ∀ k : Int, k ∈ (t0.putAll H puts).keys ↔ k ∈ puts.map Prod.fst := by
  have hinv : Inv t0 := inv_of_new h0
  refine ⟨keys_nodup _, fun k => ?_⟩
  rw [mem_keys]
  constructor
  · rintro ⟨b, hb, p, hp, rfl⟩
    obtain ⟨i, -, rfl⟩ := exists_getD_of_mem hb
    rw [putAll_bucket H hH puts hinv, new_bucket_nil h0, List.nil_append] at hp
    exact List.mem_map_of_mem Prod.fst (List.mem_of_mem_filter hp)
  · intro hk
    obtain ⟨p, hp, rfl⟩ := List.mem_map.mp hk
    refine ⟨(t0.putAll H puts).buckets_.getD (H.hash p.1 t0.buckets_.length) [], ?_, p, ?_, rfl⟩
    · apply mem_buckets_of_lt
      rw [putAll_buckets_length H hinv]
      exact hH _ _ hinv.capacity_pos
    · rw [putAll_bucket H hH puts hinv, new_bucket_nil h0, List.nil_append]
      exact List.mem_filter.mpr ⟨hp, by simp⟩

/-- Witness of C9: capacity 4 and `Put` calls for the keys 1, 2, 3, the key 1
put twice; `keys()` is the set of 1, 2 and 3. -/
theorem C9_keys_after_puts_witness :
    modHeader.HashInRange ∧ HashTable.new 4 0.75 = .ok table4 ∧
      ((table4.putAll modHeader [(1, "a"), (2, "b"), (3, "c"), (1, "d")]).keys.Nodup ∧
        ∀ k : Int, k ∈ (table4.putAll modHeader [(1, "a"), (2, "b"), (3, "c"), (1, "d")]).keys ↔
          k ∈ ([(1, "a"), (2, "b"), (3, "c"), (1, "d")] : List (Int × String)).map Prod.fst) :=
  ⟨modHeader_hashInRange, new_table4,
    C9_keys_after_puts modHeader modHeader_hashInRange 4 0.75 table4 new_table4
      [(1, "a"), (2, "b"), (3, "c"), (1, "d")]⟩

/-- C10: for every table state `values()` is the concatenation, in bucket order
and then position order, of the values of the stored entries, and its length is
the total number of entries across all buckets; after `n` `Put` calls on a
freshly constructed table its length is `n`, repeated keys counted each time. -/
theorem C10_values (H : Header) (hH : H.HashInRange) (capacity : Int) (load_factor : ℚ)
    (t0 : HashTable) (h0 : HashTable.new capacity load_factor = .ok t0)
    (puts : List (Int × String)) (t : HashTable) :
    t.values = concatValues t.buckets_ ∧ t.values.length = entryCount t.buckets_ ∧
      (t0.putAll H puts).values.length = puts.length := by
  have hv : ∀ s : HashTable, s.values = concatValues s.buckets_ := by
    intro s
    unfold HashTable.values
    rw [foldl_buckets_values, List.nil_append]
  refine ⟨hv t, by rw [hv t, length_concatValues], ?_⟩
  rw [hv, length_concatValues, entryCount_putAll H hH puts (inv_of_new h0)]
  obtain ⟨-, -, -, rfl⟩ := new_eq_ok h0
  simp [entryCount_replicate]

/-- Witness of C10: a table state with two buckets holding three entries, and
`HashTable(4, 0.75)` after `Put(1,"a")`, `Put(5,"b")`, `Put(1,"c")`. -/
theorem C10_values_witness :
    modHeader.HashInRange ∧ HashTable.new 4 0.75 = .ok table4 ∧
      ((HashTable.mk [[(2, "x")], [(1, "a"), (3, "a")]] 0 1).values =
          concatValues [[(2, "x")], [(1, "a"), (3, "a")]] ∧
        (HashTable.mk [[(2, "x")], [(1, "a"), (3, "a")]] 0 1).values.length =
          entryCount [[(2, "x")], [(1, "a"), (3, "a")]] ∧
        (table4.putAll modHeader [(1, "a"), (5, "b"), (1, "c")]).values.length = 3) :=
  ⟨modHeader_hashInRange, new_table4,
    C10_values modHeader modHeader_hashInRange 4 0.75 table4 new_table4
      [(1, "a"), (5, "b"), (1, "c")] (HashTable.mk [[(2, "x")], [(1, "a"), (3, "a")]] 0 1)⟩

/-- C11: on a freshly constructed table, `Put(k, v)` followed by `Remove(k)`
returns `v` from `Remove` and gives back the fresh table: `Search(k)` is
absent, `size() == 0` and every bucket is empty again. -/
theorem C11_put_then_remove_on_fresh_table (H : Header) (hH : H.HashInRange) (capacity : Int)
    (load_factor : ℚ) (t0 : HashTable) (h0 : HashTable.new capacity load_factor = .ok t0)
    (k : Int) (v : String) :
    (t0.Put H k v).Remove H k = some (some v, t0) ∧ t0.Search H k = none ∧ t0.size = 0 ∧
      ∀ b ∈ t0.buckets_, b = [] := by
  have hinv : Inv t0 := inv_of_new h0
  have hlt : t0.hash H k < t0.buckets_.length := hash_lt H hH hinv k
  have hnil : t0.buckets_.getD (t0.hash H k) [] = [] := new_bucket_nil h0 _
  have hput : t0.Put H k v =
      { t0 with buckets_ := t0.buckets_.set (t0.hash H k) [(k, v)] } := by
    rw [Put_eq_of_inv H hinv, hnil, List.nil_append]
  have hhash : (t0.Put H k v).hash H k = t0.hash H k := by
    simp only [HashTable.hash, Put_buckets_length H hinv]
  have hb : (t0.Put H k v).buckets_.getD ((t0.Put H k v).hash H k) [] = (k, v) :: [] := by
    rw [hhash, hput]
    exact getD_set_self hlt _
  refine ⟨?_, Search_eq_none_of_keysIn H (keysIn_of_new h0 (fun _ => False)) k id,
    hinv.num_keys, ?_⟩
  · rw [Remove_of_cons_eq H _ k (k, v) [] hb rfl, hhash, hput]
    obtain ⟨-, -, -, rfl⟩ := new_eq_ok h0
    simp [List.set_set]
  · intro b hbm
    obtain ⟨-, -, -, rfl⟩ := new_eq_ok h0
    exact List.eq_of_mem_replicate hbm

/-- Witness of C11: `HashTable(4, 0.75)`, `Put(5, "x")`, `Remove(5)`. -/
theorem C11_put_then_remove_on_fresh_table_witness :
    modHeader.HashInRange ∧ HashTable.new 4 0.75 = .ok table4 ∧
      ((table4.Put modHeader 5 "x").Remove modHeader 5 = some (some "x", table4) ∧
        table4.Search modHeader 5 = none ∧ table4.size = 0 ∧ ∀ b ∈ table4.buckets_, b = []) :=
  ⟨modHeader_hashInRange, new_table4,
    C11_put_then_remove_on_fresh_table modHeader modHeader_hashInRange 4 0.75 table4 new_table4
      5 "x"⟩

/-- C12: in every table reachable from a successful construction by `Put` and
`Remove` calls, each stored entry lies in the bucket whose index is the hash of
its key under the current capacity, so a key never occurs in two different
buckets (the hash being a function into `[0, n)`). -/
theorem C12_entries_in_their_bucket (H : Header) (hH : H.HashInRange) (t : HashTable)
    (ht : Reachable H t) :
    (∀ (i : Nat) (p : Entry), i < t.buckets_.length → p ∈ t.buckets_.getD i [] →
        t.hash H p.1 = i) ∧
      (∀ (i j : Nat) (p q : Entry), p ∈ t.buckets_.getD i [] → q ∈ t.buckets_.getD j [] →
        p.1 = q.1 → i = j) := by
  have hw := reachable_wellPlaced H hH ht
  refine ⟨fun i p _ hp => hw i p hp, fun i j p q hp hq hpq => ?_⟩
  rw [← hw i p hp, ← hw j q hq, hpq]

/-- Witness of C12: the table after `HashTable(4, 0.75)`, `Put(1, "a")`,
`Put(5, "b")`, `Put(2, "c")`; keys 1 and 5 share bucket 1. -/
theorem C12_entries_in_their_bucket_witness :
    modHeader.HashInRange ∧
      Reachable modHeader (((table4.Put modHeader 1 "a").Put modHeader 5 "b").Put modHeader 2 "c") ∧
      ((∀ (i : Nat) (p : Entry),
          i < (((table4.Put modHeader 1 "a").Put modHeader 5 "b").Put modHeader 2 "c").buckets_.length →
          p ∈ (((table4.Put modHeader 1 "a").Put modHeader 5 "b").Put modHeader 2 "c").buckets_.getD i [] →
          (((table4.Put modHeader 1 "a").Put modHeader 5 "b").Put modHeader 2 "c").hash modHeader p.1 = i) ∧
        (∀ (i j : Nat) (p q : Entry),
          p ∈ (((table4.Put modHeader 1 "a").Put modHeader 5 "b").Put modHeader 2 "c").buckets_.getD i [] →
          q ∈ (((table4.Put modHeader 1 "a").Put modHeader 5 "b").Put modHeader 2 "c").buckets_.getD j [] →
          p.1 = q.1 → i = j)) :=
  ⟨modHeader_hashInRange,
    Reachable.put 2 "c" (Reachable.put 5 "b" (Reachable.put 1 "a" (table4_reachable modHeader))),
    C12_entries_in_their_bucket modHeader modHeader_hashInRange _
      (Reachable.put 2 "c" (Reachable.put 5 "b" (Reachable.put 1 "a" (table4_reachable modHeader))))⟩

/-- C13: on a reachable table in which `Search(k)` returns `v1`, `Put(k, v2)`
appends a second entry for `k` to the bucket of `k` instead of replacing the
first: afterwards `Search(k)` still returns `v1`, `values()` is longer by
exactly one, and `keys()` is unchanged. -/
theorem C13_put_existing_key_appends (H : Header) (hH : H.HashInRange) (t : HashTable)
    (ht : Reachable H t) (k : Int) (v1 v2 : String) (hs : t.Search H k = some v1) :
    (t.Put H k v2).buckets_.getD (t.hash H k) [] = t.buckets_.getD (t.hash H k) [] ++ [(k, v2)] ∧
      (t.Put H k v2).Search H k = some v1 ∧
      (t.Put H k v2).values.length = t.values.length + 1 ∧
      (t.Put H k v2).keys = t.keys := by
  have hinv : Inv t := reachable_inv ht
  refine ⟨?_, ?_, ?_, ?_⟩
  · rw [Put_bucket H hH hinv, if_pos rfl]
  · rw [Search_Put_self H hH hinv, hs]
    rfl
  · rw [values_length, values_length, entryCount_Put H hH hinv]
  · rw [Put_eq_of_inv H hinv]
    exact foldl_buckets_set_append (k, v2) t.buckets_ (t.hash H k)
      (exists_mem_of_searchBucket_eq_some hs) []

/-- Witness of C13: the table after `HashTable(4, 0.75)` and `Put(1, "a")`,
with `Put(1, "b")`. -/
theorem C13_put_existing_key_appends_witness :
    modHeader.HashInRange ∧ Reachable modHeader (table4.Put modHeader 1 "a") ∧
      (table4.Put modHeader 1 "a").Search modHeader 1 = some "a" ∧
      (((table4.Put modHeader 1 "a").Put modHeader 1 "b").buckets_.getD
            ((table4.Put modHeader 1 "a").hash modHeader 1) [] =
          (table4.Put modHeader 1 "a").buckets_.getD
            ((table4.Put modHeader 1 "a").hash modHeader 1) [] ++ [(1, "b")] ∧
        ((table4.Put modHeader 1 "a").Put modHeader 1 "b").Search modHeader 1 = some "a" ∧
        ((table4.Put modHeader 1 "a").Put modHeader 1 "b").values.length =
          (table4.Put modHeader 1 "a").values.length + 1 ∧
        ((table4.Put modHeader 1 "a").Put modHeader 1 "b").keys =
          (table4.Put modHeader 1 "a").keys) :=
  ⟨modHeader_hashInRange, Reachable.put 1 "a" (table4_reachable modHeader), table4_put1_search,
    C13_put_existing_key_appends modHeader modHeader_hashInRange (table4.Put modHeader 1 "a")
      (Reachable.put 1 "a" (table4_reachable modHeader)) 1 "a" "b" table4_put1_search⟩

/-- C14: for every table state and key `k`, `Remove(k)` looks only at the first
entry of the bucket of `k`. It returns a value exactly when that bucket is
non-empty and its first entry has key `k`; then it returns that entry's value
and erases from the bucket every entry equal to that pair, and no other entry
(entries for `k` with another value stay). When the first entry has another key
it returns absent and the table stays as it is, also when `k` occurs later in
the bucket; on an empty bucket the call has no result and deletes nothing. -/
theorem C14_remove_inspects_first_entry (H : Header) (t : HashTable) (k : Int) :
    ((∃ v t1, t.Remove H k = some (some v, t1)) ↔
        ∃ pair rest, t.buckets_.getD (t.hash H k) [] = pair :: rest ∧ pair.1 = k) ∧
      (∀ pair rest, t.buckets_.getD (t.hash H k) [] = pair :: rest → pair.1 = k →
        t.Remove H k = some (some pair.2,
            { t with buckets_ := t.buckets_.set (t.hash H k) ((pair :: rest).filter (fun p => p ≠ pair)) }) ∧
          ∀ q : Entry, q ∈ (pair :: rest).filter (fun p => p ≠ pair) ↔ q ∈ pair :: rest ∧ q ≠ pair) ∧
      (∀ pair rest, t.buckets_.getD (t.hash H k) [] = pair :: rest → pair.1 ≠ k →
        t.Remove H k = some (none, t)) ∧
      (t.buckets_.getD (t.hash H k) [] = [] → t.Remove H k = none) ∧
      (∀ r t1, t.Remove H k = some (r, t1) →
        (¬ ∃ pair rest, t.buckets_.getD (t.hash H k) [] = pair :: rest ∧ pair.1 = k) →
        r = none ∧ t1 = t) := by
  refine ⟨⟨?_, ?_⟩, ?_, ?_, ?_, ?_⟩
  · rintro ⟨v, t1, h⟩
    cases hb : t.buckets_.getD (t.hash H k) [] with
    | nil => rw [Remove_of_nil H t k hb] at h; cases h
    | cons pair rest =>
      by_cases hk : pair.1 = k
      · exact ⟨pair, rest, rfl, hk⟩
      · rw [Remove_of_cons_ne H t k pair rest hb hk] at h
        simp at h
  · rintro ⟨pair, rest, hb, hk⟩
    exact ⟨pair.2, _, Remove_of_cons_eq H t k pair rest hb hk⟩
  · intro pair rest hb hk
    refine ⟨Remove_of_cons_eq H t k pair rest hb hk, fun q => ?_⟩
    rw [List.mem_filter]
    simp
  · intro pair rest hb hk
    exact Remove_of_cons_ne H t k pair rest hb hk
  · exact Remove_of_nil H t k
  · intro r t1 h hn
    cases hb : t.buckets_.getD (t.hash H k) [] with
    | nil => rw [Remove_of_nil H t k hb] at h; cases h
    | cons pair rest =>
      by_cases hk : pair.1 = k
      · exact absurd ⟨pair, rest, hb, hk⟩ hn
      · rw [Remove_of_cons_ne H t k pair rest hb hk] at h
        simp only [Option.some.injEq, Prod.mk.injEq] at h
        exact ⟨h.1.symm, h.2.symm⟩

/-- Witness of C14: a table state whose bucket 1 is
`(1,"a"), (5,"c"), (1,"b"), (1,"a")`: `Remove(1)` returns `"a"` and leaves
`(5,"c"), (1,"b")`; `Remove(5)` returns absent and deletes nothing. -/
theorem C14_remove_inspects_first_entry_witness :
    tableDup.Remove modHeader 1 = some (some "a",
        { buckets_ := [[], [(5, "c"), (1, "b")], [], []], num_keys_ := 0, load_factor_ := 0.75 }) ∧
      tableDup.Remove modHeader 5 = some (none, tableDup) :=
  ⟨((C14_remove_inspects_first_entry modHeader tableDup 1).2.1 (1, "a")
      [(5, "c"), (1, "b"), (1, "a")] rfl rfl).1,
    (C14_remove_inspects_first_entry modHeader tableDup 5).2.2.1 (1, "a")
      [(5, "c"), (1, "b"), (1, "a")] rfl (by decide)⟩

/-- C16 (code evaluated at the failing input): on the table state with four
buckets holding `(1,"a")` in bucket 1 and `(2,"b")` in bucket 2, stored-key
count 2 and load factor 0.5, every entry lies in the bucket of its key and
`Put(5, "c")` takes the growth branch. The new array of 8 buckets holds the whole
old bucket `(1,"a"), (5,"c")` twice, at index 1 and at index 5: five entries
instead of three, with `(5,"c")` in bucket 1 although key 5 hashes to 5 and
`(1,"a")` in bucket 5 although key 1 hashes to 1. -/
theorem C16_growth_copies_whole_buckets :
    WellPlaced modHeader tableHalf ∧
      (tableHalf.size : ℚ) / (tableHalf.capacity : ℚ) ≥ tableHalf.load_factor ∧
      thresholdTest tableHalf.size tableHalf.buckets_.length tableHalf.load_factor = true ∧
      tableHalf.Put modHeader 5 "c" =
        { buckets_ := [[], [(1, "a"), (5, "c")], [(2, "b")], [], [], [(1, "a"), (5, "c")], [], []],
          num_keys_ := 2, load_factor_ := 0.5 } ∧
      entryCount tableHalf.buckets_ + 1 = 3 ∧
      entryCount (tableHalf.Put modHeader 5 "c").buckets_ = 5 ∧
      ((5, "c") ∈ (tableHalf.Put modHeader 5 "c").buckets_.getD 1 [] ∧
        (tableHalf.Put modHeader 5 "c").hash modHeader 5 = 5) ∧
      ((1, "a") ∈ (tableHalf.Put modHeader 5 "c").buckets_.getD 5 [] ∧
        (tableHalf.Put modHeader 5 "c").hash modHeader 1 = 1) ∧
      ¬ WellPlaced modHeader (tableHalf.Put modHeader 5 "c") := by
  have hmem : ((5, "c") : Entry) ∈ (tableHalf.Put modHeader 5 "c").buckets_.getD 1 [] := by
    rw [tableHalf_put]; decide
  have hhash : (tableHalf.Put modHeader 5 "c").hash modHeader 5 = 5 := by
    rw [tableHalf_put]; rfl
  refine ⟨tableHalf_wellPlaced, tableHalf_threshold, tableHalf_thresholdTest, tableHalf_put, rfl,
    ?_, ⟨hmem, hhash⟩,
    ⟨?_, ?_⟩, ?_⟩
  · rw [tableHalf_put]; rfl
  · rw [tableHalf_put]; decide
  · rw [tableHalf_put]; rfl
  · intro hw
    have h := hw 1 (5, "c") hmem
    rw [hhash] at h
    exact absurd h (by decide)

/-- C17: no operation writes the stored-key counter (`Put` and `Remove` leave
`num_keys_` of every table state as it was), so in every table reached from a
successful construction by a run of `Put` and `Remove` calls `size() == 0`,
`empty()` is true, the threshold test of `Put` is false, and `capacity()` is
the capacity passed to the constructor. -/
theorem C17_counter_never_written (H : Header) (capacity : Int) (load_factor : ℚ)
    (t0 : HashTable) (h0 : HashTable.new capacity load_factor = .ok t0) (ops : List Op)
    (t : HashTable) (hrun : t0.run H ops = some t) (s : HashTable) (k : Int) (v : String) :
    (s.Put H k v).num_keys_ = s.num_keys_ ∧
      (∀ r s1, s.Remove H k = some (r, s1) → s1.num_keys_ = s.num_keys_) ∧
      t.size = 0 ∧ t.empty = true ∧
      ¬ ((t.size : ℚ) / (t.capacity : ℚ) ≥ t.load_factor) ∧
      thresholdTest t.size t.buckets_.length t.load_factor = false ∧
      t.capacity = capacity := by
  obtain ⟨hinv, hlen⟩ := run_inv H ops (inv_of_new h0) hrun
  refine ⟨Put_num_keys H s k v, fun r s1 hr => (Remove_effect H hr).2.1, hinv.num_keys, ?_,
    not_threshold_of_inv hinv, ?_, ?_⟩
  · simp [HashTable.empty, HashTable.size, hinv.num_keys]
  · simp only [HashTable.size, HashTable.load_factor, hinv.num_keys]
    exact thresholdTest_zero _ _ hinv.load_factor_pos
  · obtain ⟨hc, -, -, rfl⟩ := new_eq_ok h0
    simp only [HashTable.capacity, hlen, List.length_replicate]
    omega

/-- Witness of C17: `HashTable(4, 0.75)`, then `Put(1, "a")`, `Remove(1)`,
`Put(2, "b")`, and the table state with stored-key count 2. -/
theorem C17_counter_never_written_witness :
    HashTable.new 4 0.75 = .ok table4 ∧
      table4.run modHeader [.put 1 "a", .remove 1, .put 2 "b"] =
        some { buckets_ := [[], [], [(2, "b")], []], num_keys_ := 0, load_factor_ := 0.75 } ∧
      ((tableHalf.Put modHeader 5 "c").num_keys_ = tableHalf.num_keys_ ∧
        (∀ r s1, tableHalf.Remove modHeader 5 = some (r, s1) → s1.num_keys_ = tableHalf.num_keys_) ∧
        (HashTable.mk [[], [], [(2, "b")], []] 0 0.75).size = 0 ∧
        (HashTable.mk [[], [], [(2, "b")], []] 0 0.75).empty = true ∧
        ¬ (((HashTable.mk [[], [], [(2, "b")], []] 0 0.75).size : ℚ) /
            ((HashTable.mk [[], [], [(2, "b")], []] 0 0.75).capacity : ℚ) ≥
          (HashTable.mk [[], [], [(2, "b")], []] 0 0.75).load_factor) ∧
        thresholdTest (HashTable.mk [[], [], [(2, "b")], []] 0 0.75).size
          (HashTable.mk [[], [], [(2, "b")], []] 0 0.75).buckets_.length
          (HashTable.mk [[], [], [(2, "b")], []] 0 0.75).load_factor = false ∧
        (HashTable.mk [[], [], [(2, "b")], []] 0 0.75).capacity = 4) :=
  ⟨new_table4, table4_run_put_remove_put,
    C17_counter_never_written modHeader 4 0.75 table4 new_table4
      [.put 1 "a", .remove 1, .put 2 "b"] _ table4_run_put_remove_put tableHalf 5 "c"⟩

/-- C18: on every reachable table, for distinct keys `k` and `k1` and every
value `v`, `Search(k1)` returns the same result after `Put(k, v)` as before, and
the same result after `Remove(k)` as before, also when both keys hash to the
same bucket; `Remove(k)` has a result whenever the bucket of `k` is non-empty. -/
theorem C18_search_of_other_key_unchanged (H : Header) (hH : H.HashInRange) (t : HashTable)
    (ht : Reachable H t) (k k1 : Int) (hne : k ≠ k1) (v : String) :
    (t.Put H k v).Search H k1 = t.Search H k1 ∧
      (∀ r t1, t.Remove H k = some (r, t1) → t1.Search H k1 = t.Search H k1) ∧
      (t.buckets_.getD (t.hash H k) [] ≠ [] → ∃ r t1, t.Remove H k = some (r, t1)) := by
  refine ⟨Search_Put_of_ne H hH (reachable_inv ht) hne v,
    fun r t1 hr => Search_Remove_of_ne H hne hr, fun hb => ?_⟩
  cases hbk : t.buckets_.getD (t.hash H k) [] with
  | nil => exact absurd hbk hb
  | cons pair rest =>
    by_cases hk : pair.1 = k
    · exact ⟨_, _, Remove_of_cons_eq H t k pair rest hbk hk⟩
    · exact ⟨_, _, Remove_of_cons_ne H t k pair rest hbk hk⟩

/-- Witness of C18: the table after `HashTable(4, 0.75)`, `Put(1, "a")`,
`Put(5, "b")`, whose keys 1 and 5 share bucket 1: `Put(1, "z")` and `Remove(1)`
leave `Search(5)` as it was. -/
theorem C18_search_of_other_key_unchanged_witness :
    modHeader.HashInRange ∧ Reachable modHeader table4_1_5 ∧ (1 : Int) ≠ 5 ∧
      table4_1_5.hash modHeader 1 = table4_1_5.hash modHeader 5 ∧
      table4_1_5.Remove modHeader 1 = some (some "a",
        { buckets_ := [[], [(5, "b")], [], []], num_keys_ := 0, load_factor_ := 0.75 }) ∧
      ((table4_1_5.Put modHeader 1 "z").Search modHeader 5 = table4_1_5.Search modHeader 5 ∧
        (∀ r t1, table4_1_5.Remove modHeader 1 = some (r, t1) →
          t1.Search modHeader 5 = table4_1_5.Search modHeader 5) ∧
        (table4_1_5.buckets_.getD (table4_1_5.hash modHeader 1) [] ≠ [] →
          ∃ r t1, table4_1_5.Remove modHeader 1 = some (r, t1))) :=
  ⟨modHeader_hashInRange, table4_1_5_reachable, by decide, rfl, rfl,
    C18_search_of_other_key_unchanged modHeader modHeader_hashInRange table4_1_5
      table4_1_5_reachable 1 5 (by decide) "z"⟩

end itis
